import Mathlib

/-!
Verification of the krita-scripts ComfyUI plugin core against its
natural-language specification.

The development shallowly embeds the Python sources:
  * `src/comfy/workflow_parser.py`  (graph compiler: normalize, node lookup,
    parameter overrides, value conversion)
  * `src/comfy/comfyui_client.py`   (job client: status classification, polling)
  * `src/comfy/comfyui_enhancer.py` (region segmentation, compositing,
    pipeline orchestration)

Python dicts are modelled as insertion-ordered association lists, Python
values as the inductive `JVal`, machine floats as rationals, and stateful
code as explicit state passing.
-/

namespace KritaComfy

/-- Model of a Python/JSON value as handled by the plugin.  Python floats are
modelled as rationals (`float` here is a constructor name, the carrier is ℚ).
Dicts are insertion-ordered association lists, matching CPython semantics. -/
inductive JVal where
  | null
  | bool (b : Bool)
  | int (n : Int)
  | float (q : Rat)
  | str (s : String)
  | arr (xs : List JVal)
  | obj (kvs : List (String × JVal))

/-- A JSON object / Python dict at the top level: insertion-ordered pairs. -/
abbrev PyDict := List (String × JVal)

/-- `d.get(k)`: first binding of `k`, if any. -/
def jget (kvs : PyDict) (k : String) : Option JVal :=
  match kvs with
  | [] => none
  | (k0, v) :: rest => if k0 = k then some v else jget rest k

/-- `d[k] = v` on a Python dict: replace the first binding in place if the key
exists, otherwise append a new binding (CPython keeps the original position). -/
def dictSet (kvs : PyDict) (k : String) (v : JVal) : PyDict :=
  match kvs with
  | [] => [(k, v)]
  | (k0, v0) :: rest => if k0 = k then (k0, v) :: rest else (k0, v0) :: dictSet rest k v

/-- Python truthiness of a value (`if value:`). -/
def pyTruthy : JVal → Bool
  | .null => false
  | .bool b => b
  | .int n => n ≠ 0
  | .float q => q ≠ 0
  | .str s => s ≠ ""
  | .arr xs => !xs.isEmpty
  | .obj kvs => !kvs.isEmpty

/-- Python `a or b` over optional dict lookups: the left value if truthy, else
the right value (missing keys read as `None`). -/
def pyOrJ (a b : Option JVal) : JVal :=
  let av := a.getD .null
  if pyTruthy av then av else b.getD .null

/-- `str(v)` for the scalar values that occur as node ids.  Container
rendering is abbreviated (never exercised by workflow ids, which are
integers or strings); float rendering uses the rational printer. -/
def pyStr : JVal → String
  | .null => "None"
  | .bool b => if b then "True" else "False"
  | .int n => toString n
  | .float q => toString q
  | .str s => s
  | .arr _ => "<list>"
  | .obj _ => "<dict>"

/-- Python `v == s` where `s` is a `str`: true only for an equal string. -/
def jeqStr (v : JVal) (s : String) : Bool :=
  match v with
  | .str t => t = s
  | _ => false

/-- Optional-lookup variant of `jeqStr` (`d.get(k) == s`, `None` never equal). -/
def jeqOptStr (v : Option JVal) (s : String) : Bool :=
  match v with
  | some w => jeqStr w s
  | none => false

/-- ASCII decimal digit test, the fragment of `str.isdigit` the workflows use. -/
def isAsciiDigit (c : Char) : Bool :=
  '0' ≤ c && c ≤ '9'

/-- Model of Python `s.isdigit()` over ASCII strings: nonempty and all digits. -/
def pyIsDigit (s : String) : Bool :=
  !s.isEmpty && s.toList.all isAsciiDigit

/-- Numeric value of a digit list (base 10). -/
def digitsVal (ds : List Char) : Nat :=
  ds.foldl (fun a c => 10 * a + (c.toNat - 48)) 0

/-- `int(s)` for an all-digit string. -/
def digitsToNat (s : String) : Nat :=
  digitsVal s.toList

/-- Parser core for Python `float(s)` restricted to finite decimal literals:
optional sign, integer part and/or fraction, optional decimal exponent.
(`inf`, `nan` and underscore separators are outside the modelled fragment.) -/
def pyParseFloatCore (cs0 : List Char) : Option Rat :=
  let signed : Rat × List Char :=
    match cs0 with
    | '+' :: r => (1, r)
    | '-' :: r => (-1, r)
    | r => (1, r)
  let sgn := signed.1
  let afterSign := signed.2
  let ipSplit := afterSign.span isAsciiDigit
  let ip := ipSplit.1
  let afterInt := ipSplit.2
  let fracSplit : Option (List Char) × List Char :=
    match afterInt with
    | '.' :: r =>
        let s := r.span isAsciiDigit
        (some s.1, s.2)
    | r => (none, r)
  let fp := fracSplit.1
  let afterFrac := fracSplit.2
  if ip.isEmpty && (match fp with | none => true | some f => f.isEmpty) then none
  else
    let mant : Rat := (digitsVal ip : Rat) +
      (match fp with
       | none => 0
       | some f => (digitsVal f : Rat) / ((10 : Rat) ^ f.length))
    match afterFrac with
    | [] => some (sgn * mant)
    | c :: r =>
      if c = 'e' || c = 'E' then
        let esigned : Int × List Char :=
          match r with
          | '+' :: r2 => (1, r2)
          | '-' :: r2 => (-1, r2)
          | r2 => (1, r2)
        let edSplit := esigned.2.span isAsciiDigit
        if edSplit.1.isEmpty || !edSplit.2.isEmpty then none
        else some (sgn * mant * (10 : Rat) ^ (esigned.1 * (digitsVal edSplit.1 : Int)))
      else none

/-- Model of Python `float(s)`: `none` when `float` would raise `ValueError`.
Surrounding spaces are stripped as Python does. -/
def pyParseFloat (s : String) : Option Rat :=
  pyParseFloatCore (((s.toList.dropWhile (· = ' ')).reverse.dropWhile (· = ' ')).reverse)

/-- `WorkflowParser._convert_value`: ints and floats (and bools, which are
`int` instances in Python) pass through; all-digit strings become ints; other
float-parseable strings become floats; remaining strings stay strings; any
other value passes through. -/
def convert_value (v : JVal) : JVal :=
  match v with
  | .int n => .int n
  | .float q => .float q
  | .bool b => .bool b
  | .str s =>
      if pyIsDigit s then .int (digitsToNat s)
      else
        match pyParseFloat s with
        | some q => .float q
        | none => .str s
  | other => other

/-- `WorkflowParser._normalize_nodes` body for the sequence case: build the
id-keyed mapping, skipping non-dict entries; the key is `str(node["id"])`
when the declared id is present and not `None`, else the stringified index. -/
def normalize_nodes_list (nodes : List JVal) : PyDict :=
  nodes.enum.foldl
    (fun acc p =>
      match p.2 with
      | .obj kvs =>
          let key :=
            match jget kvs "id" with
            | some .null => toString p.1
            | some idv => pyStr idv
            | none => toString p.1
          dictSet acc key (.obj kvs)
      | _ => acc)
    []

/-- `WorkflowParser._normalize_nodes`: leave a dict-shaped `nodes` alone,
rewrite a list-shaped `nodes` into the id-keyed mapping, leave anything else
(including an absent key) untouched. -/
def normalize_nodes (workflow : PyDict) : PyDict :=
  match jget workflow "nodes" with
  | some (.obj _) => workflow
  | some (.arr nodes) => dictSet workflow "nodes" (.obj (normalize_nodes_list nodes))
  | _ => workflow

/-- The per-node test applied inside `_find_node`'s scan loop: Python checks
name, title, stringified id and type/class sequentially but each check
returns the same node, so one pass with this disjunction is equivalent. -/
def nodeMatches (identifier : String) (node : JVal) : Bool :=
  match node with
  | .obj kvs =>
      jeqOptStr (jget kvs "name") identifier ||
      jeqOptStr (jget kvs "title") identifier ||
      (pyStr ((jget kvs "id").getD .null) = identifier) ||
      jeqStr (pyOrJ (jget kvs "type") (jget kvs "class_type")) identifier
  | _ => false

/-- Last-resort test of `_find_node`: the node's dict-shaped `inputs` has the
identifier as a key. -/
def hasInputKey (identifier : String) (node : JVal) : Bool :=
  match node with
  | .obj kvs =>
      match jget kvs "inputs" with
      | some (.obj ikvs) => (jget ikvs identifier).isSome
      | _ => false
  | _ => false

/-- The node values iterated by `_find_node` (dict values or list entries). -/
def nodeValues : JVal → List JVal
  | .obj kvs => kvs.map Prod.snd
  | .arr xs => xs
  | _ => []

/-- `WorkflowParser._find_node`: direct key match on a dict, then one scan
applying the per-node checks, then a numeric-index fallback for list-shaped
nodes, then the inputs-key scan.  For list-shaped nodes the final scan
iterates an already-exhausted `enumerate` iterator and is therefore a no-op,
which the embedding reproduces. -/
def find_node (nodes : JVal) (identifier : String) : Option JVal :=
  let direct : Option JVal :=
    match nodes with
    | .obj kvs => jget kvs identifier
    | _ => none
  match direct with
  | some v => some v
  | none =>
    match (nodeValues nodes).find? (nodeMatches identifier) with
    | some n => some n
    | none =>
      let idxFallback : Option JVal :=
        match nodes with
        | .arr xs =>
            if pyIsDigit identifier then
              match xs.get? (digitsToNat identifier) with
              | some (.obj kvs) => some (.obj kvs)
              | _ => none
            else none
        | _ => none
      match idxFallback with
      | some n => some n
      | none =>
        match nodes with
        | .obj _ => (nodeValues nodes).find? (hasInputKey identifier)
        | _ => none

/-- Position of the first binding of `k` in a dict, mirroring `jget`. -/
def idxOfKey (kvs : PyDict) (k : String) : Option Nat :=
  match kvs with
  | [] => none
  | (k0, _) :: rest => if k0 = k then some 0 else (idxOfKey rest k).map (· + 1)

/-- In-place update of the i-th element of a list (no-op out of range). -/
def listModify (xs : List α) (i : Nat) (f : α → α) : List α :=
  match xs, i with
  | [], _ => []
  | x :: rest, 0 => f x :: rest
  | x :: rest, n + 1 => x :: listModify rest n f

/-- Locator twin of `find_node`: the position (within the iterated node
values) of the node `_find_node` returns.  Mutating through the returned
reference in Python corresponds to updating the container at this index. -/
def find_node_idx (nodes : JVal) (identifier : String) : Option Nat :=
  let direct : Option Nat :=
    match nodes with
    | .obj kvs => idxOfKey kvs identifier
    | _ => none
  match direct with
  | some i => some i
  | none =>
    match (nodeValues nodes).findIdx? (nodeMatches identifier) with
    | some i => some i
    | none =>
      let idxFallback : Option Nat :=
        match nodes with
        | .arr xs =>
            if pyIsDigit identifier then
              match xs.get? (digitsToNat identifier) with
              | some (.obj _) => some (digitsToNat identifier)
              | _ => none
            else none
        | _ => none
      match idxFallback with
      | some i => some i
      | none =>
        match nodes with
        | .obj _ => (nodeValues nodes).findIdx? (hasInputKey identifier)
        | _ => none

/-- Replace the node at position `i` of the nodes container (dict values keep
their key; list entries are replaced). -/
def updContainerAt (nodes : JVal) (i : Nat) (newNode : JVal) : JVal :=
  match nodes with
  | .obj kvs => .obj (listModify kvs i (fun kv => (kv.1, newNode)))
  | .arr xs => .arr (xs.set i newNode)
  | other => other

/-- Per-node test of `_find_input_target`: the node's `inputs` (read with
`or {}`) is a dict containing the key, or a list with a matching `name`. -/
def inputTargetMatches (inputKey : String) (node : JVal) : Bool :=
  match node with
  | .obj kvs =>
      match pyOrJ (jget kvs "inputs") (some (.obj [])) with
      | .obj ikvs => (jget ikvs inputKey).isSome
      | .arr xs => xs.any (fun e =>
          match e with
          | .obj ekvs => jeqOptStr (jget ekvs "name") inputKey
          | _ => false)
      | _ => false
  | _ => false

/-- Locator of `WorkflowParser._find_input_target`: index of the first node
that has `inputKey` among its inputs. -/
def find_input_target_idx (nodes : JVal) (inputKey : String) : Option Nat :=
  (nodeValues nodes).findIdx? (inputTargetMatches inputKey)

/-- `entry.get("name") == target` over a list-shaped `inputs` entry. -/
def entryNameIs (target : String) (e : JVal) : Bool :=
  match e with
  | .obj ekvs => jeqOptStr (jget ekvs "name") target
  | _ => false

/-- Store `cv` into the first list-shaped `inputs` entry named `target`
(`entry["value"] = cv`), returning the updated node, or `none` when the node
has no list-shaped `inputs` or no entry matches. -/
def setInputsEntryValue (nodeKvs : PyDict) (target : String) (cv : JVal) : Option PyDict :=
  match jget nodeKvs "inputs" with
  | some (.arr xs) =>
      match xs.findIdx? (entryNameIs target) with
      | some j =>
          some (dictSet nodeKvs "inputs" (.arr (listModify xs j (fun e =>
            match e with
            | .obj ekvs => .obj (dictSet ekvs "value" cv)
            | other => other))))
      | none => none
  | _ => none

/-- `WorkflowParser._set_widget_value`: overwrite the first widget value when
the widget list is nonempty, else store into a matching list-shaped input
entry.  Returns the updated node, the ghost list of stored values, and the
Python return flag. -/
def set_widget_value (nodeKvs : PyDict) (value : JVal) (target : String) :
    PyDict × List JVal × Bool :=
  let cv := convert_value value
  match jget nodeKvs "widgets_values" with
  | some (.arr (_ :: ws)) =>
      (dictSet nodeKvs "widgets_values" (.arr (cv :: ws)), [cv], true)
  | _ =>
      match setInputsEntryValue nodeKvs target cv with
      | some node2 => (node2, [cv], true)
      | none => (nodeKvs, [], false)

/-- The walk-and-overwrite part of `_apply_single` for a multi-segment
target: descend through `segs` (list index for digit segments, dict key
otherwise) and overwrite the leaf with the converted value.  Returns the
updated subtree and the ghost list of stored values; failed walks return the
subtree unchanged (the source only logs).  A non-dict node found through a
direct key match aborts in the first dict/list test exactly as the source's
`isinstance` guard does. -/
def applyPath (current : JVal) (segs : List String) (value : JVal) : JVal × List JVal :=
  match segs with
  | [] => (current, [])
  | [leaf] =>
      match current with
      | .arr xs =>
          if pyIsDigit leaf then
            if digitsToNat leaf < xs.length then
              (.arr (xs.set (digitsToNat leaf) (convert_value value)), [convert_value value])
            else (.arr xs, [])
          else (.arr xs, [])
      | .obj kvs =>
          (.obj (dictSet kvs leaf (convert_value value)), [convert_value value])
      | other => (other, [])
  | seg :: rest =>
      match current with
      | .arr xs =>
          if pyIsDigit seg then
            match xs.get? (digitsToNat seg) with
            | some elem =>
                let r := applyPath elem rest value
                (.arr (xs.set (digitsToNat seg) r.1), r.2)
            | none => (.arr xs, [])
          else (.arr xs, [])
      | .obj kvs =>
          match jget kvs seg with
          | some .null => (.obj kvs, [])
          | some v =>
              let r := applyPath v rest value
              (.obj (dictSet kvs seg r.1), r.2)
          | none => (.obj kvs, [])
      | other => (other, [])

/-- Single-segment branch of `_apply_single` operating on the nodes
container: input-target store on the node's top level, else first widget /
input-entry store on the same node, else the same stores on the node located
by `_find_node` (the trailing input-entry rescan of the source is embedded
verbatim even though it repeats the scan `_set_widget_value` just failed).
A non-dict node reached through a direct key match raises `AttributeError`
in the source before storing anything; the embedding returns unchanged. -/
def apply_single_one_seg (nodes : JVal) (target : String) (value : JVal) :
    JVal × List JVal :=
  let cv := convert_value value
  let viaFindNode : JVal × List JVal :=
    match find_node_idx nodes target with
    | some i =>
        match (nodeValues nodes).get? i with
        | some (.obj nodeKvs) =>
            let r := set_widget_value nodeKvs value target
            if r.2.2 then (updContainerAt nodes i (.obj r.1), r.2.1)
            else
              match setInputsEntryValue nodeKvs target cv with
              | some node2 => (updContainerAt nodes i (.obj node2), [cv])
              | none => (nodes, [])
        | _ => (nodes, [])
    | none => (nodes, [])
  match find_input_target_idx nodes target with
  | some i =>
      match (nodeValues nodes).get? i with
      | some (.obj nodeKvs) =>
          if pyTruthy (.obj nodeKvs) && !(target == "") then
            (updContainerAt nodes i (.obj (dictSet nodeKvs target cv)), [cv])
          else if pyTruthy (.obj nodeKvs) then
            let r := set_widget_value nodeKvs value target
            if r.2.2 then (updContainerAt nodes i (.obj r.1), r.2.1)
            else viaFindNode
          else viaFindNode
      | _ => viaFindNode
  | none => viaFindNode

/-- Worker for `splitDot`, accumulating the current segment reversed. -/
def splitDotGo : List Char → List Char → List String
  | [], acc => [String.mk acc.reverse]
  | c :: rest, acc =>
      if c = '.' then String.mk acc.reverse :: splitDotGo rest []
      else splitDotGo rest (c :: acc)

/-- Python `target.split(".")`: always nonempty (an empty string yields one
empty segment). -/
def splitDot (s : String) : List String :=
  splitDotGo s.toList []

/-- `WorkflowParser._apply_single`: split the dotted target, fetch the nodes
container (`workflow.get("nodes") or {}` — a falsy value yields a fresh dict
whose mutations are invisible in the workflow), dispatch on single- versus
multi-segment targets, and write the container back.  The ghost second
component lists every value stored into the workflow. -/
def apply_single (wf : PyDict) (target : String) (value : JVal) :
    PyDict × List JVal :=
  let segments := splitDot target
  let nodes0 := (jget wf "nodes").getD .null
  let nodes := if pyTruthy nodes0 then nodes0 else .obj []
  match segments with
  | [] => (wf, [])
  | nodeIdentifier :: remainder =>
    let result : JVal × List JVal :=
      if remainder.isEmpty then
        apply_single_one_seg nodes nodeIdentifier value
      else
        match find_node_idx nodes nodeIdentifier with
        | none => (nodes, [])
        | some i =>
          match (nodeValues nodes).get? i with
          | some node =>
              let r := applyPath node remainder value
              (updContainerAt nodes i r.1, r.2)
          | none => (nodes, [])
    if pyTruthy nodes0 then (dictSet wf "nodes" result.1, result.2)
    else (wf, result.2)

/-! Enhancer-side node search and literal injection
(`comfyui_enhancer.py`). -/

/-- The nodes container as read by the enhancer (`workflow.get("nodes") or {}`). -/
def enhNodesOf (wf : PyDict) : JVal :=
  let n0 := (jget wf "nodes").getD .null
  if pyTruthy n0 then n0 else .obj []

/-- Write the nodes container back into the workflow (mutation through the
shared reference is visible only when the workflow actually held it). -/
def writeNodesBack (wf : PyDict) (newNodes : JVal) : PyDict :=
  let n0 := (jget wf "nodes").getD .null
  if pyTruthy n0 then dictSet wf "nodes" newNodes else wf

/-- Locator of `ComfyUIEnhancer._find_node`: direct key match on a dict, else
the first dict node whose `name` equals the identifier. -/
def enh_find_node_idx (nodes : JVal) (identifier : String) : Option Nat :=
  let direct : Option Nat :=
    match nodes with
    | .obj kvs => idxOfKey kvs identifier
    | _ => none
  match direct with
  | some i => some i
  | none =>
    (nodeValues nodes).findIdx? (fun n =>
      match n with
      | .obj kvs => jeqOptStr (jget kvs "name") identifier
      | _ => false)

/-- Per-node test of the `_find_prompt_node` scan: dict `inputs` with a
`text` key, list `inputs` with a `text`-named entry, or type/class equal to
CLIPTextEncode. -/
def promptCandidate (n : JVal) : Bool :=
  match n with
  | .obj kvs =>
      (match pyOrJ (jget kvs "inputs") (some (.obj [])) with
       | .obj ikvs => (jget ikvs "text").isSome
       | .arr xs => xs.any (entryNameIs "text")
       | _ => false) ||
      jeqStr (pyOrJ (jget kvs "type") (jget kvs "class_type")) "CLIPTextEncode"
  | _ => false

/-- Locator of `ComfyUIEnhancer._find_prompt_node`: the node named "Prompt"
when that lookup yields a truthy value, else the first prompt candidate. -/
def enh_find_prompt_node_idx (nodes : JVal) : Option Nat :=
  let byName : Option Nat :=
    match enh_find_node_idx nodes "Prompt" with
    | some i =>
        if pyTruthy (((nodeValues nodes).get? i).getD .null) then some i else none
    | none => none
  match byName with
  | some i => some i
  | none => (nodeValues nodes).findIdx? promptCandidate

/-- `ComfyUIEnhancer._inject_prompt`: write the prompt text — verbatim, as a
string — into the located node's dict `inputs` under `text`, else into the
first `text`-named list entry (also mirroring it into the first widget value
when widgets exist), else into the first widget value.  The ghost second
component lists every value stored.  A non-dict located node raises
`AttributeError` in the source before storing; the embedding returns
unchanged. -/
def inject_prompt (wf : PyDict) (promptText : String) : PyDict × List JVal :=
  let nodes := enhNodesOf wf
  match enh_find_prompt_node_idx nodes with
  | none => (wf, [])
  | some i =>
    match (nodeValues nodes).get? i with
    | some (.obj nodeKvs) =>
        let inputs := (jget nodeKvs "inputs").getD (.obj [])
        match inputs with
        | .obj ikvs =>
            let node2 := dictSet nodeKvs "inputs" (.obj (dictSet ikvs "text" (.str promptText)))
            (writeNodesBack wf (updContainerAt nodes i (.obj node2)), [.str promptText])
        | .arr xs =>
            match xs.findIdx? (entryNameIs "text") with
            | some j =>
                let xs2 := listModify xs j (fun e =>
                  match e with
                  | .obj ekvs => .obj (dictSet ekvs "value" (.str promptText))
                  | other => other)
                let node2 := dictSet nodeKvs "inputs" (.arr xs2)
                match jget node2 "widgets_values" with
                | some (.arr (_ :: ws)) =>
                    let node3 := dictSet node2 "widgets_values" (.arr (.str promptText :: ws))
                    (writeNodesBack wf (updContainerAt nodes i (.obj node3)),
                     [.str promptText, .str promptText])
                | _ =>
                    (writeNodesBack wf (updContainerAt nodes i (.obj node2)), [.str promptText])
            | none =>
                match jget nodeKvs "widgets_values" with
                | some (.arr (_ :: ws)) =>
                    let node2 := dictSet nodeKvs "widgets_values" (.arr (.str promptText :: ws))
                    (writeNodesBack wf (updContainerAt nodes i (.obj node2)), [.str promptText])
                | _ => (wf, [])
        | _ =>
            match jget nodeKvs "widgets_values" with
            | some (.arr (_ :: ws)) =>
                let node2 := dictSet nodeKvs "widgets_values" (.arr (.str promptText :: ws))
                (writeNodesBack wf (updContainerAt nodes i (.obj node2)), [.str promptText])
            | _ => (wf, [])
    | _ => (wf, [])

/-- ASCII lowercase of a string (class names in workflows are ASCII). -/
def asciiLower (s : String) : String :=
  String.mk (s.toList.map Char.toLower)

/-- `hay.find(pat) >= 0`: substring containment over character lists. -/
def strContainsSub (hay pat : String) : Bool :=
  let rec go : List Char → Bool
    | [] => pat.toList.isPrefixOf []
    | c :: rest => pat.toList.isPrefixOf (c :: rest) || go rest
  go hay.toList

/-- Per-node test of the `_find_load_image_node` scan: type/class contains
"loadimage" or "load image" (lowercased), or dict `inputs` has an `image`
key.  A non-string truthy type field raises in the source (`.lower()` on a
non-string); such candidates never store, and the embedding skips them. -/
def loadImageCandidate (n : JVal) : Bool :=
  match n with
  | .obj kvs =>
      let ctype := pyOrJ (some (pyOrJ (jget kvs "class_type") (jget kvs "type"))) (some (.str ""))
      (match ctype with
       | .str s => strContainsSub (asciiLower s) "loadimage" || strContainsSub (asciiLower s) "load image"
       | _ => false) ||
      (match pyOrJ (jget kvs "inputs") (some (.obj [])) with
       | .obj ikvs => (jget ikvs "image").isSome
       | _ => false)
  | _ => false

/-- Locator of `ComfyUIEnhancer._find_load_image_node`: the node named
"Load Image" when truthy, else the first load-image candidate. -/
def enh_find_load_image_node_idx (nodes : JVal) : Option Nat :=
  let byName : Option Nat :=
    match enh_find_node_idx nodes "Load Image" with
    | some i =>
        if pyTruthy (((nodeValues nodes).get? i).getD .null) then some i else none
    | none => none
  match byName with
  | some i => some i
  | none => (nodeValues nodes).findIdx? loadImageCandidate

/-- `ComfyUIEnhancer._inject_image`: write the image path — verbatim, as a
string — into the located node's dict `inputs` under `image`, else into the
first widget value.  The ghost second component lists every value stored. -/
def inject_image (wf : PyDict) (imagePath : String) : PyDict × List JVal :=
  let nodes := enhNodesOf wf
  match enh_find_load_image_node_idx nodes with
  | none => (wf, [])
  | some i =>
    match (nodeValues nodes).get? i with
    | some (.obj nodeKvs) =>
        match (jget nodeKvs "inputs").getD (.obj []) with
        | .obj ikvs =>
            let node2 := dictSet nodeKvs "inputs" (.obj (dictSet ikvs "image" (.str imagePath)))
            (writeNodesBack wf (updContainerAt nodes i (.obj node2)), [.str imagePath])
        | _ =>
            match jget nodeKvs "widgets_values" with
            | some (.arr (_ :: ws)) =>
                let node2 := dictSet nodeKvs "widgets_values" (.arr (.str imagePath :: ws))
                (writeNodesBack wf (updContainerAt nodes i (.obj node2)), [.str imagePath])
            | _ => (wf, [])
    | _ => (wf, [])

/-! ### Claim-side definitions, written from the specification wording -/

/-- Spec wording (C2 tier 2): node name/title equality. -/
def nameTitleTier (identifier : String) (node : JVal) : Bool :=
  match node with
  | .obj kvs =>
      jeqOptStr (jget kvs "name") identifier || jeqOptStr (jget kvs "title") identifier
  | _ => false

/-- The stringified-id check the source interleaves into its scan. -/
def idStringTier (identifier : String) (node : JVal) : Bool :=
  match node with
  | .obj kvs => pyStr ((jget kvs "id").getD .null) = identifier
  | _ => false

/-- Spec wording (C2 tier 3): node type/class equality. -/
def typeClassTier (identifier : String) (node : JVal) : Bool :=
  match node with
  | .obj kvs => jeqStr (pyOrJ (jget kvs "type") (jget kvs "class_type")) identifier
  | _ => false

/-- Node lookup as claim C2 states it: a direct id-key match over the whole
mapping, then name/title equality over all nodes, then type/class equality
over all nodes — the first match of the highest-priority tier that has any
match, in mapping iteration order within a tier. -/
def findNodeTieredSpec (kvs : PyDict) (identifier : String) : Option JVal :=
  match jget kvs identifier with
  | some v => some v
  | none =>
    match (kvs.map Prod.snd).find? (nameTitleTier identifier) with
    | some n => some n
    | none => (kvs.map Prod.snd).find? (typeClassTier identifier)

/-- The per-node disjunction of the amended claim: name/title, stringified
id, and type/class are checked node by node during a single pass. -/
def perNodeMatch (identifier : String) (node : JVal) : Bool :=
  nameTitleTier identifier node ||
  idStringTier identifier node ||
  typeClassTier identifier node

/-- Node lookup as the amended claim states it: direct key match first, then
one pass in iteration order returning the first node matching any of the
per-node checks, then the numeric-index fallback on sequences, then the
first node carrying the identifier as an inputs key (mappings only). -/
def findNodeAmendedSpec (nodes : JVal) (identifier : String) : Option JVal :=
  let fromKey : Option JVal :=
    match nodes with
    | .obj kvs => jget kvs identifier
    | _ => none
  let scan := (nodeValues nodes).find? (perNodeMatch identifier)
  let byIndex : Option JVal :=
    match nodes with
    | .arr xs =>
        if pyIsDigit identifier then
          match xs.get? (digitsToNat identifier) with
          | some (.obj kvs) => some (.obj kvs)
          | _ => none
        else none
    | _ => none
  let byInputs : Option JVal :=
    match nodes with
    | .obj _ => (nodeValues nodes).find? (hasInputKey identifier)
    | _ => none
  fromKey.orElse fun _ => scan.orElse fun _ => byIndex.orElse fun _ => byInputs

/-- Value conversion as claim C5 states it: all-digit strings become
integers, any other float-parseable string becomes a float, all other
strings remain strings, and non-string values pass through unchanged. -/
def convertValueSpec (v : JVal) : JVal :=
  match v with
  | .str s =>
      if pyIsDigit s then .int (digitsToNat s)
      else
        match pyParseFloat s with
        | some q => .float q
        | none => .str s
  | other => other

/-- The key claim C6 prescribes for a sequence node: the declared id if
present, else the sequence index, both stringified. -/
def specNodeKey (idx : Nat) (kvs : PyDict) : String :=
  match jget kvs "id" with
  | some .null => toString idx
  | some idv => pyStr idv
  | none => toString idx

/-- The mapping claim C6 prescribes for sequence-shaped nodes. -/
def normalizeSpecMapping (nodes : List JVal) : PyDict :=
  nodes.enum.foldl
    (fun acc p =>
      match p.2 with
      | .obj kvs => dictSet acc (specNodeKey p.1 kvs) (.obj kvs)
      | _ => acc)
    []

/-! ### Basic dict lemmas -/

theorem jget_dictSet_self (kvs : PyDict) (k : String) (v : JVal) :
    jget (dictSet kvs k v) k = some v := by
  induction kvs with
  | nil => simp [dictSet, jget]
  | cons kv rest ih =>
    obtain ⟨k0, v0⟩ := kv
    by_cases h : k0 = k <;> simp [dictSet, jget, h, ih]

/-! ### C6: normalization of sequence-shaped nodes, and idempotence -/

/-- C6: for every workflow whose nodes are supplied as a sequence, normalize
rewrites them into the id-or-index keyed, stringified mapping the claim
describes, and applying normalize a second time leaves the result
unchanged. -/
theorem normalize_nodes_of_obj (w : PyDict) (m : PyDict)
    (h : jget w "nodes" = some (.obj m)) : normalize_nodes w = w := by
  unfold normalize_nodes
  rw [h]

theorem normalize_nodes_seq_spec_and_idempotent (wf : PyDict) (nodes : List JVal)
    (h : jget wf "nodes" = some (.arr nodes)) :
    jget (normalize_nodes wf) "nodes" = some (.obj (normalizeSpecMapping nodes)) ∧
    normalize_nodes (normalize_nodes wf) = normalize_nodes wf := by
  have h1 : normalize_nodes wf = dictSet wf "nodes" (.obj (normalize_nodes_list nodes)) := by
    unfold normalize_nodes
    rw [h]
  have hspec : normalize_nodes_list nodes = normalizeSpecMapping nodes := rfl
  have h2 : jget (normalize_nodes wf) "nodes" = some (.obj (normalize_nodes_list nodes)) := by
    rw [h1]
    exact jget_dictSet_self wf "nodes" _
  exact ⟨by rw [h2, hspec], normalize_nodes_of_obj _ _ h2⟩

/-- Witness for C6 at a concrete two-node sequence workflow. -/
theorem normalize_nodes_seq_spec_witness :
    jget [("nodes", JVal.arr [.obj [("id", .int 5)], .obj [("k", .int 0)]])] "nodes" =
      some (.arr [.obj [("id", .int 5)], .obj [("k", .int 0)]]) ∧
    (jget (normalize_nodes [("nodes", JVal.arr [.obj [("id", .int 5)], .obj [("k", .int 0)]])]) "nodes" =
      some (.obj (normalizeSpecMapping [.obj [("id", .int 5)], .obj [("k", .int 0)]])) ∧
    normalize_nodes (normalize_nodes [("nodes", JVal.arr [.obj [("id", .int 5)], .obj [("k", .int 0)]])]) =
      normalize_nodes [("nodes", JVal.arr [.obj [("id", .int 5)], .obj [("k", .int 0)]])]) :=
  ⟨rfl, normalize_nodes_seq_spec_and_idempotent _ _ rfl⟩

/-! ### C2: node lookup order -/

/-- The two-node mapping on which the spec's tier order and the source
disagree: the first node matches only by type, the second only by name. -/
def c2Nodes : PyDict :=
  [("1", .obj [("type", .str "X")]), ("2", .obj [("name", .str "X")])]

/-- C2 counterexample: on `c2Nodes` the source's single-pass lookup returns
the type-matching node that comes first in iteration order, while the
claimed tier order would return the name-matching node; the claim is false
at this input. -/
theorem find_node_not_tiered :
    find_node (.obj c2Nodes) "X" = some (.obj [("type", .str "X")]) ∧
    findNodeTieredSpec c2Nodes "X" = some (.obj [("name", .str "X")]) ∧
    find_node (.obj c2Nodes) "X" ≠ findNodeTieredSpec c2Nodes "X" := by
  refine ⟨rfl, rfl, ?_⟩
  intro h
  rw [show find_node (.obj c2Nodes) "X" = some (.obj [("type", .str "X")]) from rfl,
      show findNodeTieredSpec c2Nodes "X" = some (.obj [("name", .str "X")]) from rfl] at h
  simp at h

/-- The source's per-node disjunction agrees with the amended claim's. -/
theorem nodeMatches_eq_perNodeMatch (identifier : String) (n : JVal) :
    nodeMatches identifier n = perNodeMatch identifier n := by
  cases n <;>
    simp [nodeMatches, perNodeMatch, nameTitleTier, idStringTier, typeClassTier,
      Bool.or_assoc]

/-- C2 amended: node lookup first tries a direct id-key match; otherwise it
scans nodes once in mapping iteration order and returns the first node whose
name or title equals the identifier, or whose stringified id equals it, or
whose type/class equals it — the checks are applied per node during one
pass, not as global tiers — then falls back to numeric sequence indexing
and finally to an inputs-key search on mappings. -/
theorem find_node_amended (nodes : JVal) (identifier : String) :
    find_node nodes identifier = findNodeAmendedSpec nodes identifier := by
  have hpred : nodeMatches identifier = perNodeMatch identifier :=
    funext (nodeMatches_eq_perNodeMatch identifier)
  unfold find_node findNodeAmendedSpec
  rw [hpred]
  cases nodes with
  | obj kvs =>
      cases h : jget kvs identifier with
      | some v => simp [h, Option.orElse]
      | none =>
          simp only [h, Option.orElse]
          cases hs : (kvs.map Prod.snd).find? (perNodeMatch identifier) <;>
            simp [nodeValues, hs, Option.orElse]
  | arr xs =>
      cases hs : xs.find? (perNodeMatch identifier) with
      | some n => simp [nodeValues, hs, Option.orElse]
      | none =>
          simp only [nodeValues, hs, Option.orElse]
          by_cases hd : pyIsDigit identifier
          · simp only [hd, if_true]
            cases hg : xs.get? (digitsToNat identifier) with
            | none => simp [hg]
            | some v => cases v <;> simp [hg]
          · simp [hd]
  | null => rfl
  | bool b => rfl
  | int n => rfl
  | float q => rfl
  | str s => rfl

/-! ### C5: value conversion of stored override values and injected literals -/

theorem convert_value_eq_spec (v : JVal) : convert_value v = convertValueSpec v := by
  cases v <;> rfl

theorem set_widget_value_writes (nodeKvs : PyDict) (value : JVal) (target : String) :
    ∀ v ∈ (set_widget_value nodeKvs value target).2.1, v = convert_value value := by
  intro v hv
  unfold set_widget_value at hv
  dsimp only at hv
  repeat' split at hv
  all_goals simpa using hv

theorem applyPath_writes : ∀ (current : JVal) (segs : List String) (value : JVal),
    ∀ v ∈ (applyPath current segs value).2, v = convert_value value
  | current, [], value => by
      intro v hv
      simp [applyPath] at hv
  | current, [leaf], value => by
      intro v hv
      unfold applyPath at hv
      repeat' split at hv
      all_goals simpa using hv
  | current, seg :: s2 :: rest, value => by
      intro v hv
      unfold applyPath at hv
      repeat' split at hv
      all_goals first
        | simpa using hv
        | exact applyPath_writes _ _ _ v hv

theorem apply_single_one_seg_writes (nodes : JVal) (target : String) (value : JVal) :
    ∀ v ∈ (apply_single_one_seg nodes target value).2, v = convert_value value := by
  intro v hv
  unfold apply_single_one_seg at hv
  dsimp only at hv
  repeat' split at hv
  all_goals first
    | simpa using hv
    | exact set_widget_value_writes _ _ _ v hv

theorem apply_single_writes (wf : PyDict) (target : String) (value : JVal) :
    ∀ v ∈ (apply_single wf target value).2, v = convert_value value := by
  intro v hv
  unfold apply_single at hv
  dsimp only at hv
  repeat' split at hv
  all_goals first
    | simpa using hv
    | exact apply_single_one_seg_writes _ _ _ v (by simpa using hv)
    | exact applyPath_writes _ _ _ v (by simpa using hv)

theorem inject_prompt_writes (wf : PyDict) (text : String) :
    ∀ v ∈ (inject_prompt wf text).2, v = .str text := by
  intro v hv
  unfold inject_prompt at hv
  dsimp only at hv
  repeat' split at hv
  all_goals simpa using hv

theorem inject_image_writes (wf : PyDict) (path : String) :
    ∀ v ∈ (inject_image wf path).2, v = .str path := by
  intro v hv
  unfold inject_image at hv
  dsimp only at hv
  repeat' split at hv
  all_goals simpa using hv

/-- A one-node workflow holding a CLIPTextEncode prompt node. -/
def c5Wf : PyDict :=
  [("nodes", .obj [("5", .obj [("class_type", .str "CLIPTextEncode"),
                               ("inputs", .obj [])])])]

/-- C5 counterexample: injecting the prompt literal "123" stores the string
"123" verbatim, while the claimed conversion rule would store the integer
123; the claim is false for injected literals. -/
theorem injected_literal_not_converted :
    (inject_prompt c5Wf "123").2 = [.str "123"] ∧
    jget (normalize_nodes (inject_prompt c5Wf "123").1) "nodes" =
      some (.obj [("5", .obj [("class_type", .str "CLIPTextEncode"),
                              ("inputs", .obj [("text", .str "123")])])]) ∧
    convert_value (.str "123") = .int 123 ∧
    JVal.str "123" ≠ JVal.int 123 :=
  ⟨rfl, rfl, rfl, fun h => nomatch h⟩

/-- C5 amended: every override value written into the workflow by
`_apply_single` is stored as the conversion of the raw value under the
claimed rule (all-digit strings to int, other float-parseable strings to
float, other strings unchanged, non-strings pass through), while injected
literals — the prompt text and the input-image path — are stored verbatim
as strings without conversion. -/
theorem override_values_are_converted :
    (∀ v, convert_value v = convertValueSpec v) ∧
    (∀ wf target value, ∀ v ∈ (apply_single wf target value).2,
        v = convertValueSpec value) ∧
    (∀ wf text, ∀ v ∈ (inject_prompt wf text).2, v = .str text) ∧
    (∀ wf path, ∀ v ∈ (inject_image wf path).2, v = .str path) ∧
    convert_value (.str "7") = .int 7 ∧
    convert_value (.str "0.2") = .float (1 / 5) ∧
    convert_value (.str "auto") = .str "auto" := by
  refine ⟨convert_value_eq_spec, ?_, inject_prompt_writes, inject_image_writes, rfl, ?_, rfl⟩
  · intro wf target value v hv
    rw [← convert_value_eq_spec]
    exact apply_single_writes wf target value v hv
  · have hq : pyParseFloat "0.2" = some (1 / 5 : Rat) := by
      rw [show pyParseFloat "0.2" =
            some ((1 : Rat) * ((digitsVal ['0'] : Rat) +
              (digitsVal ['2'] : Rat) / ((10 : Rat) ^ (['2'] : List Char).length))) from rfl,
          show digitsVal ['0'] = 0 from rfl, show digitsVal ['2'] = 2 from rfl]
      norm_num
    show (match pyParseFloat "0.2" with
          | some q => JVal.float q
          | none => JVal.str "0.2") = JVal.float (1 / 5)
    rw [hq]

/-- A workflow with a `steps` input, to exercise an override store. -/
def c5WfA : PyDict :=
  [("nodes", .obj [("1", .obj [("inputs", .obj [("steps", .int 1)])])])]

/-- Witness for C5 (amended) at concrete inputs: an actual override store of
"7" yields the converted integer 7, and an actual prompt injection of "abc"
stores the verbatim string. -/
theorem override_values_are_converted_witness :
    (JVal.int 7 ∈ (apply_single c5WfA "steps" (.str "7")).2 ∧
      JVal.int 7 = convertValueSpec (.str "7")) ∧
    (JVal.str "abc" ∈ (inject_prompt c5Wf "abc").2 ∧
      JVal.str "abc" = .str "abc") := by
  have h1 : JVal.int 7 ∈ (apply_single c5WfA "steps" (.str "7")).2 := by
    rw [show (apply_single c5WfA "steps" (.str "7")).2 = [.int 7] from rfl]
    exact List.mem_singleton.mpr rfl
  have h2 : JVal.str "abc" ∈ (inject_prompt c5Wf "abc").2 := by
    rw [show (inject_prompt c5Wf "abc").2 = [.str "abc"] from rfl]
    exact List.mem_singleton.mpr rfl
  exact ⟨⟨h1, override_values_are_converted.2.1 c5WfA "steps" (.str "7") (.int 7) h1⟩,
         ⟨h2, override_values_are_converted.2.2.1 c5Wf "abc" (.str "abc") h2⟩⟩

/-! ### Job client (`comfyui_client.py`): status classification and polling -/

/-- Exceptions the polling code can raise or propagate. -/
inductive PyErr where
  /-- `urllib.error.HTTPError` with its status code. -/
  | http (code : Nat)
  /-- A non-HTTP transport failure (e.g. `URLError`), not caught by the client. -/
  | transport
  /-- `AttributeError` from calling `.get` on a non-dict status block. -/
  | attributeErr
  /-- `RuntimeError` reporting a remote execution error for the given task. -/
  | runtime (taskId : String)
  /-- `RuntimeError` for user cancellation. -/
  | cancelled
deriving DecidableEq

/-- `ComfyUIClient._unwrap_history`: if the body is wrapped under the task id
with a dict value, copy that entry and `setdefault` the id back onto it. -/
def unwrap_history (payload : PyDict) (taskId : String) : PyDict :=
  match jget payload taskId with
  | some (.obj entry) =>
      match jget entry "prompt_id" with
      | some _ => entry
      | none => entry ++ [("prompt_id", .str taskId)]
  | _ => payload

/-- `ComfyUIClient._extract_status`: explicit success/ok/completed markers
classify as done, explicit error/failed markers as error, else a truthy
`outputs` field as done, else pending.  `payload.get("status", {})` defaults
to an empty dict; `.get` on a non-dict status block raises
`AttributeError`. -/
def extract_status (payload : PyDict) : Except PyErr String :=
  match (jget payload "status").getD (.obj []) with
  | .obj statusBlock =>
      let statusValue := jget statusBlock "status"
      let isDone :=
        match statusValue with
        | some (.str s) => s = "success" || s = "ok" || s = "completed"
        | _ => false
      let isErr :=
        match statusValue with
        | some (.str s) => s = "error" || s = "failed"
        | _ => false
      if isDone then .ok "done"
      else if isErr then .ok "error"
      else if pyTruthy ((jget payload "outputs").getD .null) then .ok "done"
      else .ok "pending"
  | _ => .error .attributeErr

/-- One transport response for a GET of the history endpoint. -/
inductive GetResult where
  | ok (body : PyDict)
  | httpErr (code : Nat)
  /-- A transport failure other than `HTTPError`; the client's
  `except HTTPError` clause does not catch it. -/
  | exc

/-- `ComfyUIClient.poll_once`: a single non-blocking status check.  A 404
reads as pending with no data, any other transport error propagates, and a
successful body is unwrapped and classified. -/
def poll_once (resp : GetResult) (taskId : String) :
    Except PyErr (String × Option PyDict) :=
  match resp with
  | .httpErr code =>
      if code = 404 then .ok ("pending", none) else .error (.http code)
  | .exc => .error .transport
  | .ok raw =>
      let data := unwrap_history raw taskId
      match extract_status data with
      | .ok s => .ok (s, some data)
      | .error e => .error e

/-- Outcome of `poll_result`. -/
inductive PollOutcome where
  /-- The result record returned on a done classification. -/
  | done (data : PyDict)
  /-- Any exception leaving the loop (propagated transport errors, the
  cancellation error, the remote-error RuntimeError). -/
  | raised (e : PyErr)
  /-- `TimeoutError` after the deadline passes. -/
  | timedOut
  /-- The supplied unrolling bound ran out (the loop would continue). -/
  | fuelOut

/-- `ComfyUIClient.poll_result` loop.  `stop` is the `stop_requested`
callback and `resp` the transport response, both indexed by the iteration
counter `k`; `elapsed` tracks wall-clock time against `maxPollTime`, and
advances by one `pollInterval` at each `time.sleep` (after a 404 and after a
pending classification).  The `tick` callback is invoked with its exceptions
swallowed, so it is observationally absent.  `fuel` bounds the unrolling; it
can only produce the distinct `fuelOut` outcome, never mask an error. -/
def poll_result_loop (pollInterval maxPollTime : Rat) (taskId : String)
    (stop : Nat → Bool) (resp : Nat → GetResult) :
    Nat → Nat → Rat → PollOutcome
  | 0, _, _ => .fuelOut
  | fuel + 1, k, elapsed =>
    if elapsed < maxPollTime then
      if stop k then .raised .cancelled
      else
        match resp k with
        | .httpErr code =>
            if code = 404 then
              poll_result_loop pollInterval maxPollTime taskId stop resp
                fuel (k + 1) (elapsed + pollInterval)
            else .raised (.http code)
        | .exc => .raised .transport
        | .ok raw =>
            let data := unwrap_history raw taskId
            match extract_status data with
            | .error e => .raised e
            | .ok s =>
                if s = "done" then .done data
                else if s = "error" then .raised (.runtime taskId)
                else
                  poll_result_loop pollInterval maxPollTime taskId stop resp
                    fuel (k + 1) (elapsed + pollInterval)
    else .timedOut

/-- `poll_result` as called by the orchestrator: start at iteration 0 with
no elapsed time. -/
def poll_result (pollInterval maxPollTime : Rat) (taskId : String)
    (stop : Nat → Bool) (resp : Nat → GetResult) (fuel : Nat) : PollOutcome :=
  poll_result_loop pollInterval maxPollTime taskId stop resp fuel 0 0

/-! ### Claim-side status classification (C3) -/

/-- The payload carries an explicit status marker among `vals` (claim
wording: "an explicit success/ok/completed status marker", "an explicit
error/failed marker"). -/
def hasStatusMarker (payload : PyDict) (vals : List String) : Bool :=
  match (jget payload "status").getD (.obj []) with
  | .obj statusBlock =>
      match jget statusBlock "status" with
      | some (.str s) => vals.contains s
      | _ => false
  | _ => false

/-- The outputs collection is present and non-empty (truthy). -/
def outputsNonEmpty (payload : PyDict) : Bool :=
  pyTruthy ((jget payload "outputs").getD .null)

/-- The payload's status block is readable: absent or dict-shaped (reading a
non-dict block raises in the source). -/
def statusBlockReadable (payload : PyDict) : Bool :=
  match (jget payload "status").getD (.obj []) with
  | .obj _ => true
  | _ => false

/-- Status classification as claim C3 states it: explicit success marker,
else explicit error marker, else non-empty outputs, else pending. -/
def statusSpec (payload : PyDict) : String :=
  if hasStatusMarker payload ["success", "ok", "completed"] then "done"
  else if hasStatusMarker payload ["error", "failed"] then "error"
  else if outputsNonEmpty payload then "done"
  else "pending"

/-- C3: on every payload whose status block is readable, the source's
classification agrees with the claimed tiering, and in particular an
explicit error marker wins over a non-empty outputs collection. -/
theorem extract_status_spec (payload : PyDict)
    (hwf : statusBlockReadable payload = true) :
    extract_status payload = .ok (statusSpec payload) ∧
    (hasStatusMarker payload ["error", "failed"] = true →
      outputsNonEmpty payload = true →
      extract_status payload = .ok "error") := by
  obtain ⟨sb, hsb⟩ : ∃ sb, (jget payload "status").getD (.obj []) = JVal.obj sb := by
    unfold statusBlockReadable at hwf
    split at hwf
    · rename_i kvs heq
      exact ⟨kvs, heq⟩
    · exact absurd hwf (by simp)
  have hmain : extract_status payload = .ok (statusSpec payload) := by
    simp only [extract_status, statusSpec, hasStatusMarker, outputsNonEmpty, hsb]
    cases hv : jget sb "status" with
    | none => split_ifs <;> rfl
    | some v =>
        cases v <;> simp [List.contains] <;> split_ifs <;> simp_all
  refine ⟨hmain, fun herr houts => ?_⟩
  rw [hmain]
  unfold statusSpec
  rw [herr]
  have hd : hasStatusMarker payload ["success", "ok", "completed"] = false := by
    unfold hasStatusMarker at herr ⊢
    rw [hsb] at herr ⊢
    dsimp only at herr ⊢
    revert herr
    cases hv : jget sb "status" with
    | none => intro herr; rfl
    | some v =>
        intro herr
        cases v <;> simp [List.contains] at herr ⊢
        rcases herr with h | h <;> simp [h]
  rw [hd]
  simp

/-- A poll payload reporting an explicit error status alongside a non-empty
outputs collection. -/
def c3Payload : PyDict :=
  [("status", .obj [("status", .str "error")]),
   ("outputs", .arr [.obj [("images", .arr [])]])]

/-- Witness for C3: on `c3Payload` the explicit error marker beats the
non-empty outputs collection and the result is error, not done. -/
theorem extract_status_spec_witness :
    statusBlockReadable c3Payload = true ∧
    extract_status c3Payload = .ok "error" := by
  refine ⟨rfl, ?_⟩
  exact (extract_status_spec c3Payload rfl).2 rfl rfl

/-- The only exception `_extract_status` itself can raise is the
`AttributeError` from a non-dict status block. -/
theorem extract_status_error (p : PyDict) (e : PyErr)
    (h : extract_status p = .error e) : e = .attributeErr := by
  unfold extract_status at h
  split at h
  · rcases ite_eq_iff.mp h with ⟨_, h2⟩ | ⟨_, h2⟩
    · exact absurd h2 (by simp)
    · rcases ite_eq_iff.mp h2 with ⟨_, h3⟩ | ⟨_, h3⟩
      · exact absurd h3 (by simp)
      · rcases ite_eq_iff.mp h3 with ⟨_, h4⟩ | ⟨_, h4⟩ <;> exact absurd h4 (by simp)
  · simp_all

/-- C4: during polling, a 404 from the status endpoint is never raised to
the caller — `poll_once` reports it as pending with no data, and the
`poll_result` loop retries after exactly one poll interval — while every
other HTTP transport error propagates on first occurrence. -/
theorem poll_404_is_pending (pollInterval maxPollTime : Rat) (taskId : String)
    (stop : Nat → Bool) (resp : Nat → GetResult) :
    (∀ fuel k elapsed,
      poll_result_loop pollInterval maxPollTime taskId stop resp fuel k elapsed ≠
        .raised (.http 404)) ∧
    (∀ fuel k elapsed, elapsed < maxPollTime → stop k = false →
      resp k = .httpErr 404 →
      poll_result_loop pollInterval maxPollTime taskId stop resp (fuel + 1) k elapsed =
        poll_result_loop pollInterval maxPollTime taskId stop resp fuel (k + 1)
          (elapsed + pollInterval)) ∧
    (∀ fuel k elapsed code, elapsed < maxPollTime → stop k = false →
      resp k = .httpErr code → code ≠ 404 →
      poll_result_loop pollInterval maxPollTime taskId stop resp (fuel + 1) k elapsed =
        .raised (.http code)) ∧
    (poll_once (.httpErr 404) taskId = .ok ("pending", none)) ∧
    (∀ code, code ≠ 404 → poll_once (.httpErr code) taskId = .error (.http code)) := by
  refine ⟨?_, ?_, ?_, rfl, ?_⟩
  · intro fuel
    induction fuel with
    | zero => intro k elapsed; simp [poll_result_loop]
    | succ n ih =>
        intro k elapsed
        unfold poll_result_loop
        split
        · split
          · simp
          · split
            · split
              · exact ih (k + 1) (elapsed + pollInterval)
              · rename_i code hcode hne
                simp only [ne_eq, PollOutcome.raised.injEq, PyErr.http.injEq]
                intro hc
                exact hne (by rw [hc])
            · simp
            · rename_i raw heq
              dsimp only
              split
              · rename_i e heq2
                have he := extract_status_error _ _ heq2
                subst he
                simp
              · rename_i s heq2
                split
                · simp
                · split
                  · simp
                  · exact ih (k + 1) (elapsed + pollInterval)
        · simp
  · intro fuel k elapsed ht hs hr
    conv_lhs => unfold poll_result_loop
    rw [if_pos ht, hs, hr]
    simp
  · intro fuel k elapsed code ht hs hr hne
    unfold poll_result_loop
    rw [if_pos ht, hs, hr]
    simp [hne]
  · intro code hne
    unfold poll_once
    simp [hne]

/-- Witness for C4 at concrete inputs: with a transport that returns 404
first and a non-404 error on a separate run, the loop retries one interval
after the 404, propagates the 500, and `poll_once` behaves as claimed. -/
theorem poll_404_is_pending_witness :
    (poll_result_loop 1 180 "t" (fun _ => false) (fun _ => .httpErr 404) 3 0 0 ≠
      .raised (.http 404)) ∧
    (poll_result_loop 1 180 "t" (fun _ => false) (fun _ => .httpErr 404) 3 0 0 =
      poll_result_loop 1 180 "t" (fun _ => false) (fun _ => .httpErr 404) 2 1 (0 + 1)) ∧
    (poll_result_loop 1 180 "t" (fun _ => false) (fun _ => .httpErr 500) 3 0 0 =
      .raised (.http 500)) ∧
    poll_once (.httpErr 404) "t" = .ok ("pending", none) ∧
    poll_once (.httpErr 500) "t" = .error (.http 500) := by
  have h := poll_404_is_pending 1 180 "t" (fun _ => false) (fun _ => .httpErr 404)
  have h2 := poll_404_is_pending 1 180 "t" (fun _ => false) (fun _ => .httpErr 500)
  refine ⟨h.1 3 0 0, h.2.1 2 0 0 (by decide) rfl rfl, ?_, h.2.2.2.1, ?_⟩
  · exact h2.2.2.1 2 0 0 500 (by decide) rfl rfl (by decide)
  · exact h2.2.2.2.2 500 (by decide)

/-! ### Compositor (`comfyui_enhancer.py`): edge fade and hole punch -/

/-- Python `int(q)` on a rational: truncation toward zero. -/
def pyTrunc (q : Rat) : Int :=
  if q < 0 then -(⌊-q⌋) else ⌊q⌋

/-- Chebyshev distance of pixel `p` to the nearest image edge (the claim's
`dist = min(x, y, width-1-x, height-1-y)` with `x = p % w`, `y = p / w`). -/
def edgeDist (w h p : Nat) : Nat :=
  min (min (p % w) (p / w)) (min (w - 1 - p % w) (h - 1 - p / w))

/-- The fade width the source computes: `max(1, int(min(width, height) *
fade_ratio))`. -/
def fadeOf (w h : Nat) (rho : Rat) : Int :=
  max 1 (pyTrunc ((min w h : Nat) * rho))

/-- `ComfyUIEnhancer._apply_edge_fade` over the flat RGBA byte buffer of a
`width × height` image (4 bytes per pixel, alpha at byte offset 3).  The
source iterates rows then columns, visiting pixel `p = y*width + x` for
`p = 0, 1, …` in increasing order, which the fold over `range (w*h)`
reproduces; each iteration reads and overwrites only that pixel's alpha
byte. -/
def apply_edge_fade (data : List Nat) (w h : Nat) (rho : Rat) : List Nat :=
  if w = 0 || h = 0 then data
  else
    let fade : Int := fadeOf w h rho
    (List.range (w * h)).foldl
      (fun d p =>
        let x := p % w
        let y := p / w
        let dist := edgeDist w h p
        if (dist : Int) ≥ fade then d
        else
          let factor : Rat := max 0 (min 1 ((dist : Rat) / (fade : Rat)))
          let i := (y * w + x) * 4 + 3
          d.set i ((pyTrunc ((d.getD i 0 : Rat) * factor)).toNat))
      data

/-- `RegionRect` from the orchestrator (plain integer rectangle). -/
structure RegionRect where
  x : Int
  y : Int
  width : Int
  height : Int
deriving DecidableEq

/-- A paint layer as a total pixel map: each integer coordinate holds an
RGBA byte quadruple (channel order follows byte offsets, alpha last). -/
def Layer := Int × Int → Nat × Nat × Nat × Nat

/-- `layer.pixelData(rx, ry, w, h)`: the rect's pixels row-major, four bytes
per pixel. -/
def pixelDataOf (layer : Layer) (rx ry : Int) (w h : Nat) : List Nat :=
  ((List.range (w * h)).map (fun p =>
    let px := layer (rx + (p % w : Nat), ry + (p / w : Nat))
    [px.1, px.2.1, px.2.2.1, px.2.2.2])).flatten

/-- `layer.setPixelData(buf, rx, ry, w, h)`: overwrite exactly the rect's
footprint from the flat buffer; pixels outside keep their old value. -/
def setPixelDataOf (layer : Layer) (rx ry : Int) (w h : Nat) (buf : List Nat) : Layer :=
  fun pos =>
    let dx := pos.1 - rx
    let dy := pos.2 - ry
    if 0 ≤ dx ∧ dx < (w : Int) ∧ 0 ≤ dy ∧ dy < (h : Int) then
      let p := dy.toNat * w + dx.toNat
      (buf.getD (4 * p) 0, buf.getD (4 * p + 1) 0,
       buf.getD (4 * p + 2) 0, buf.getD (4 * p + 3) 0)
    else layer pos

/-- `ComfyUIEnhancer._punch_hole_on_layer`: read the region's pixels,
zero the alpha of pixels at `dist ≥ fade` and scale the others by
`max(0, 1 - dist/fade)`, then write the buffer back over exactly the
region's footprint.  The source's surrounding try/except only logs; no
modelled operation raises. -/
def punch_hole_on_layer (layer : Layer) (rect : RegionRect) (rho : Rat) : Layer :=
  if rect.width ≤ 0 ∨ rect.height ≤ 0 then layer
  else
    let w := rect.width.toNat
    let h := rect.height.toNat
    let fade : Int := fadeOf w h rho
    let data := pixelDataOf layer rect.x rect.y w h
    if data.isEmpty then layer
    else
      let buf := (List.range (w * h)).foldl
        (fun d p =>
          let x := p % w
          let y := p / w
          let dist := edgeDist w h p
          let ai := (y * w + x) * 4 + 3
          let a := d.getD ai 0
          if (dist : Int) ≥ fade then d.set ai 0
          else d.set ai ((pyTrunc ((a : Rat) * max 0 (1 - (dist : Rat) / (fade : Rat)))).toNat))
        data
      setPixelDataOf layer rect.x rect.y w h buf

/-! ### Characterization of the alpha-only pixel folds -/

/-- Shared skeleton of the two alpha transforms: visit pixels `0 … n-1` and
rewrite only the alpha byte `4*p + 3`, the new value depending on the pixel
index and the alpha's current value (`none` skips the pixel). -/
def alphaFold (f : Nat → Nat → Option Nat) (n : Nat) (d : List Nat) : List Nat :=
  (List.range n).foldl
    (fun d p =>
      match f p (d.getD (4 * p + 3) 0) with
      | some v => d.set (4 * p + 3) v
      | none => d) d

theorem getD_set_of_ne (l : List Nat) (i j v : Nat) (h : i ≠ j) :
    (l.set i v).getD j 0 = l.getD j 0 := by
  simp [List.getD, List.getElem?_set_ne h]

theorem getD_set_of_eq (l : List Nat) (i v : Nat) (h : i < l.length) :
    (l.set i v).getD i 0 = v := by
  simp [List.getD, List.getElem?_set_self, h]

theorem alphaFold_succ (f : Nat → Nat → Option Nat) (n : Nat) (d : List Nat) :
    alphaFold f (n + 1) d =
      (match f n ((alphaFold f n d).getD (4 * n + 3) 0) with
       | some v => (alphaFold f n d).set (4 * n + 3) v
       | none => alphaFold f n d) := by
  unfold alphaFold
  have hr : List.range (n + 1) = List.range n ++ [n] := by
    simpa using List.range_succ (n := n)
  rw [hr, List.foldl_append]
  rfl

theorem alphaFold_length (f : Nat → Nat → Option Nat) (n : Nat) (d : List Nat) :
    (alphaFold f n d).length = d.length := by
  induction n with
  | zero => rfl
  | succ m ih =>
      rw [alphaFold_succ]
      split <;> simp [ih]

theorem alphaFold_getD_untouched (f : Nat → Nat → Option Nat) (n : Nat) (d : List Nat)
    (j : Nat) (hj : j % 4 ≠ 3 ∨ n ≤ j / 4) :
    (alphaFold f n d).getD j 0 = d.getD j 0 := by
  induction n with
  | zero => rfl
  | succ m ih =>
      have hne : 4 * m + 3 ≠ j := by
        rcases hj with hj | hj
        · intro hc
          exact hj (by omega)
        · intro hc
          omega
      have ihm : (alphaFold f m d).getD j 0 = d.getD j 0 := by
        apply ih
        rcases hj with hj | hj
        · exact Or.inl hj
        · exact Or.inr (by omega)
      rw [alphaFold_succ]
      split
      · rw [getD_set_of_ne _ _ _ _ hne]
        exact ihm
      · exact ihm

theorem alphaFold_getD_alpha (f : Nat → Nat → Option Nat) (n : Nat) (d : List Nat)
    (p : Nat) (hp : p < n) (hlen : 4 * p + 3 < d.length) :
    (alphaFold f n d).getD (4 * p + 3) 0 =
      (match f p (d.getD (4 * p + 3) 0) with
       | some v => v
       | none => d.getD (4 * p + 3) 0) := by
  induction n with
  | zero => omega
  | succ m ih =>
      rcases Nat.lt_succ_iff_lt_or_eq.mp hp with hlt | heq
      · rw [alphaFold_succ]
        have hne : 4 * m + 3 ≠ 4 * p + 3 := by omega
        split
        · rw [getD_set_of_ne _ _ _ _ hne]
          exact ih hlt
        · exact ih hlt
      · subst heq
        have hsame : (alphaFold f p d).getD (4 * p + 3) 0 = d.getD (4 * p + 3) 0 :=
          alphaFold_getD_untouched f p d _ (Or.inr (by omega))
        rw [alphaFold_succ, hsame]
        split
        · rw [getD_set_of_eq _ _ _ (by rw [alphaFold_length]; exact hlen)]
        · exact hsame

/-- Per-pixel alpha update of `_apply_edge_fade`. -/
def edgeFadeAlpha (w h : Nat) (fade : Int) (p a : Nat) : Option Nat :=
  let dist := edgeDist w h p
  if (dist : Int) ≥ fade then none
  else some ((pyTrunc ((a : Rat) * max 0 (min 1 ((dist : Rat) / (fade : Rat))))).toNat)

/-- Per-pixel alpha update of `_punch_hole_on_layer`. -/
def punchAlpha (w h : Nat) (fade : Int) (p a : Nat) : Option Nat :=
  let dist := edgeDist w h p
  some (if (dist : Int) ≥ fade then 0
        else (pyTrunc ((a : Rat) * max 0 (1 - (dist : Rat) / (fade : Rat)))).toNat)

theorem apply_edge_fade_eq_alphaFold (data : List Nat) (w h : Nat) (rho : Rat)
    (hw : 0 < w) (hh : 0 < h) :
    apply_edge_fade data w h rho =
      alphaFold (edgeFadeAlpha w h (fadeOf w h rho)) (w * h) data := by
  unfold apply_edge_fade alphaFold
  rw [if_neg (by simp; omega)]
  apply List.foldl_ext
  intro d p _
  have hidx : (p / w * w + p % w) * 4 + 3 = 4 * p + 3 := by
    have h1 : p / w * w + p % w = p := by
      rw [Nat.mul_comm]
      exact Nat.div_add_mod p w
    rw [h1]
    omega
  simp only [edgeFadeAlpha, hidx]
  split <;> rfl

theorem punch_fold_eq_alphaFold (data : List Nat) (w h : Nat) (fade : Int) :
    (0 < w) →
    (List.range (w * h)).foldl
      (fun d p =>
        let x := p % w
        let y := p / w
        let dist := edgeDist w h p
        let ai := (y * w + x) * 4 + 3
        let a := d.getD ai 0
        if (dist : Int) ≥ fade then d.set ai 0
        else d.set ai ((pyTrunc ((a : Rat) * max 0 (1 - (dist : Rat) / (fade : Rat)))).toNat))
      data =
      alphaFold (punchAlpha w h fade) (w * h) data := by
  intro hw
  unfold alphaFold
  apply List.foldl_ext
  intro d p _
  have hidx : (p / w * w + p % w) * 4 + 3 = 4 * p + 3 := by
    have h1 : p / w * w + p % w = p := by
      rw [Nat.mul_comm]
      exact Nat.div_add_mod p w
    rw [h1]
    omega
  simp only [punchAlpha, hidx]
  split <;> rename_i hc
  · simp [hc]
  · simp [hc]

theorem flatten4_length (g : Nat → List Nat) (hg : ∀ i, (g i).length = 4) (n : Nat) :
    (((List.range n).map g).flatten).length = 4 * n := by
  induction n with
  | zero => rfl
  | succ m ih =>
      have hr : List.range (m + 1) = List.range m ++ [m] := by
        simpa using List.range_succ (n := m)
      rw [hr, List.map_append, List.flatten_append]
      simp only [List.length_append, ih, List.flatten, List.map]
      simp [hg]
      omega

theorem flatten4_getD (g : Nat → List Nat) (hg : ∀ i, (g i).length = 4) (n p c : Nat)
    (hp : p < n) (hc : c < 4) :
    (((List.range n).map g).flatten).getD (4 * p + c) 0 = (g p).getD c 0 := by
  induction n with
  | zero => omega
  | succ m ih =>
      have hr : List.range (m + 1) = List.range m ++ [m] := by
        simpa using List.range_succ (n := m)
      rw [hr, List.map_append, List.flatten_append]
      rcases Nat.lt_succ_iff_lt_or_eq.mp hp with hlt | heq
      · rw [List.getD_append _ _ _ _ (by rw [flatten4_length g hg m]; omega)]
        exact ih hlt
      · subst heq
        rw [List.getD_append_right _ _ _ _ (by rw [flatten4_length g hg p]; omega)]
        rw [flatten4_length g hg p]
        simp only [List.map, List.flatten, List.append_nil]
        congr 1
        omega

theorem pixelDataOf_length (layer : Layer) (rx ry : Int) (w h : Nat) :
    (pixelDataOf layer rx ry w h).length = 4 * (w * h) := by
  unfold pixelDataOf
  apply flatten4_length
  intro i
  rfl

theorem pixelDataOf_getD (layer : Layer) (rx ry : Int) (w h : Nat) (p c : Nat)
    (hp : p < w * h) (hc : c < 4) :
    (pixelDataOf layer rx ry w h).getD (4 * p + c) 0 =
      [(layer (rx + (p % w : Nat), ry + (p / w : Nat))).1,
       (layer (rx + (p % w : Nat), ry + (p / w : Nat))).2.1,
       (layer (rx + (p % w : Nat), ry + (p / w : Nat))).2.2.1,
       (layer (rx + (p % w : Nat), ry + (p / w : Nat))).2.2.2].getD c 0 := by
  unfold pixelDataOf
  apply flatten4_getD _ _ _ _ _ hp hc
  intro i
  rfl

/-- Spec-side fade width, in the claim's own words:
`fade = max(1, floor(min(width, height) * fadeRatio))`. -/
def fadeSpec (w h : Nat) (rho : Rat) : Int :=
  max 1 ⌊((min w h : Nat) : Rat) * rho⌋

theorem pyTrunc_of_nonneg (q : Rat) (h : 0 ≤ q) : pyTrunc q = ⌊q⌋ := by
  unfold pyTrunc
  rw [if_neg (not_lt.mpr h)]

/-- Truncation and floor differ on negative arguments, but `max 1` clamps
both to 1 there, so the source's fade equals the claimed one. -/
theorem fadeOf_eq_fadeSpec (w h : Nat) (rho : Rat) :
    fadeOf w h rho = fadeSpec w h rho := by
  unfold fadeOf fadeSpec pyTrunc
  set q : Rat := ((min w h : Nat) : Rat) * rho with hq
  split
  · rename_i hneg
    have h0 : (0 : Int) ≤ ⌊-q⌋ := Int.le_floor.mpr (by push_cast; linarith)
    have h1 : -⌊-q⌋ ≤ (1 : Int) := by omega
    have h2 : ⌊q⌋ ≤ (1 : Int) := le_trans (Int.floor_nonpos (le_of_lt hneg)) (by omega)
    rw [max_eq_left h1, max_eq_left h2]
  · rfl

/-- C7: on every positive-size RGBA buffer, with
`fade = max(1, floor(min(width, height) * fadeRatio))`, edge fading keeps
the buffer length, leaves every red/green/blue byte untouched, leaves the
alpha byte of every pixel at `dist ≥ fade` untouched (so those pixels are
byte-identical), and scales the alpha of every pixel at `dist < fade` by
`dist/fade` clamped to `[0, 1]`, storing the floor of the scaled value. -/
theorem apply_edge_fade_spec (data : List Nat) (w h : Nat) (rho : Rat)
    (hw : 0 < w) (hh : 0 < h) (hlen : data.length = 4 * (w * h)) :
    (apply_edge_fade data w h rho).length = data.length ∧
    (∀ p c, p < w * h → c < 3 →
        (apply_edge_fade data w h rho).getD (4 * p + c) 0 = data.getD (4 * p + c) 0) ∧
    (∀ p, p < w * h →
        (((edgeDist w h p : Nat) : Int) ≥ fadeSpec w h rho →
          (apply_edge_fade data w h rho).getD (4 * p + 3) 0 = data.getD (4 * p + 3) 0) ∧
        (((edgeDist w h p : Nat) : Int) < fadeSpec w h rho →
          (apply_edge_fade data w h rho).getD (4 * p + 3) 0 =
            (⌊(data.getD (4 * p + 3) 0 : Rat) *
                max 0 (min 1 ((edgeDist w h p : Rat) / (fadeSpec w h rho : Rat)))⌋).toNat)) := by
  rw [apply_edge_fade_eq_alphaFold data w h rho hw hh, fadeOf_eq_fadeSpec]
  refine ⟨alphaFold_length _ _ _, ?_, ?_⟩
  · intro p c hp hc
    exact alphaFold_getD_untouched _ _ _ _ (Or.inl (by omega))
  · intro p hp
    have hlt : 4 * p + 3 < data.length := by omega
    have halpha := alphaFold_getD_alpha (edgeFadeAlpha w h (fadeSpec w h rho))
      (w * h) data p hp hlt
    constructor
    · intro hge
      rw [halpha]
      unfold edgeFadeAlpha
      rw [if_pos (by exact_mod_cast hge)]
    · intro hltf
      rw [halpha]
      unfold edgeFadeAlpha
      rw [if_neg (by exact_mod_cast not_le.mpr hltf)]
      have hnn : (0 : Rat) ≤ (data.getD (4 * p + 3) 0 : Rat) *
          max 0 (min 1 ((edgeDist w h p : Rat) / (fadeSpec w h rho : Rat))) :=
        mul_nonneg (by positivity) (le_max_left 0 _)
      rw [pyTrunc_of_nonneg _ hnn]

/-- Witness for C7 on a concrete 1×1 opaque buffer. -/
theorem apply_edge_fade_spec_witness :
    (apply_edge_fade [1, 2, 3, 4] 1 1 (1 / 2)).length = 4 := by
  have hmain := apply_edge_fade_spec [1, 2, 3, 4] 1 1 (1 / 2)
    (by decide) (by decide) (by decide)
  simpa using hmain.1

/-- C10: both alpha transforms modify only alpha bytes.  Edge fading keeps
the buffer length and every byte at an offset other than 3 mod 4; the hole
punch leaves every pixel outside the region's footprint fully unchanged and
preserves the first three channel bytes of every pixel inside it. -/
theorem alpha_only_transforms :
    (∀ (data : List Nat) (w h : Nat) (rho : Rat),
        (apply_edge_fade data w h rho).length = data.length ∧
        ∀ j, j % 4 ≠ 3 →
          (apply_edge_fade data w h rho).getD j 0 = data.getD j 0) ∧
    (∀ (layer : Layer) (rect : RegionRect) (rho : Rat) (pos : Int × Int),
        (¬ (rect.x ≤ pos.1 ∧ pos.1 < rect.x + rect.width ∧
            rect.y ≤ pos.2 ∧ pos.2 < rect.y + rect.height) →
          punch_hole_on_layer layer rect rho pos = layer pos) ∧
        ((punch_hole_on_layer layer rect rho pos).1 = (layer pos).1 ∧
         (punch_hole_on_layer layer rect rho pos).2.1 = (layer pos).2.1 ∧
         (punch_hole_on_layer layer rect rho pos).2.2.1 = (layer pos).2.2.1)) := by
  constructor
  · intro data w h rho
    by_cases hdeg : w = 0 || h = 0
    · unfold apply_edge_fade
      rw [if_pos hdeg]
      exact ⟨rfl, fun _ _ => rfl⟩
    · have hw : 0 < w := by simp at hdeg; omega
      have hh : 0 < h := by simp at hdeg; omega
      rw [apply_edge_fade_eq_alphaFold data w h rho hw hh]
      exact ⟨alphaFold_length _ _ _,
        fun j hj => alphaFold_getD_untouched _ _ _ _ (Or.inl hj)⟩
  · intro layer rect rho pos
    by_cases hdeg : rect.width ≤ 0 ∨ rect.height ≤ 0
    · unfold punch_hole_on_layer
      rw [if_pos hdeg]
      exact ⟨fun _ => rfl, rfl, rfl, rfl⟩
    · have hwpos : 0 < rect.width := by omega
      have hhpos : 0 < rect.height := by omega
      have hw : 0 < rect.width.toNat := by omega
      have hh : 0 < rect.height.toNat := by omega
      have hwh : 0 < rect.width.toNat * rect.height.toNat := Nat.mul_pos hw hh
      have hlen : (pixelDataOf layer rect.x rect.y rect.width.toNat rect.height.toNat).length =
          4 * (rect.width.toNat * rect.height.toNat) := pixelDataOf_length ..
      have hne : (pixelDataOf layer rect.x rect.y rect.width.toNat rect.height.toNat).isEmpty
          = false := by
        cases hd : pixelDataOf layer rect.x rect.y rect.width.toNat rect.height.toNat with
        | nil => rw [hd] at hlen; simp at hlen; omega
        | cons a t => rfl
      have hpunch : punch_hole_on_layer layer rect rho =
          setPixelDataOf layer rect.x rect.y rect.width.toNat rect.height.toNat
            (alphaFold
              (punchAlpha rect.width.toNat rect.height.toNat
                (fadeOf rect.width.toNat rect.height.toNat rho))
              (rect.width.toNat * rect.height.toNat)
              (pixelDataOf layer rect.x rect.y rect.width.toNat rect.height.toNat)) := by
        unfold punch_hole_on_layer
        rw [if_neg hdeg]
        dsimp only
        rw [hne]
        simp only [Bool.false_eq_true, if_false]
        rw [punch_fold_eq_alphaFold _ _ _ _ hw]
      constructor
      · intro hout
        rw [hpunch]
        unfold setPixelDataOf
        dsimp only
        rw [if_neg (by intro hc; exact hout (by omega))]
      · by_cases hin : 0 ≤ pos.1 - rect.x ∧ pos.1 - rect.x < ((rect.width.toNat : Nat) : Int) ∧
            0 ≤ pos.2 - rect.y ∧ pos.2 - rect.y < ((rect.height.toNat : Nat) : Int)
        · rw [hpunch]
          unfold setPixelDataOf
          dsimp only
          rw [if_pos hin]
          obtain ⟨hx0, hx1, hy0, hy1⟩ := hin
          have hdxw : (pos.1 - rect.x).toNat < rect.width.toNat := by omega
          have hdyh : (pos.2 - rect.y).toNat < rect.height.toNat := by omega
          have hp : (pos.2 - rect.y).toNat * rect.width.toNat + (pos.1 - rect.x).toNat <
              rect.width.toNat * rect.height.toNat := by
            calc (pos.2 - rect.y).toNat * rect.width.toNat + (pos.1 - rect.x).toNat
                < ((pos.2 - rect.y).toNat + 1) * rect.width.toNat := by
                  rw [Nat.succ_mul]; omega
              _ ≤ rect.height.toNat * rect.width.toNat :=
                  Nat.mul_le_mul_right _ (by omega)
              _ = rect.width.toNat * rect.height.toNat := Nat.mul_comm ..
          have hmod : ((pos.2 - rect.y).toNat * rect.width.toNat + (pos.1 - rect.x).toNat) %
              rect.width.toNat = (pos.1 - rect.x).toNat := by
            rw [Nat.mul_comm ((pos.2 - rect.y).toNat), Nat.mul_add_mod]
            exact Nat.mod_eq_of_lt hdxw
          have hdiv : ((pos.2 - rect.y).toNat * rect.width.toNat + (pos.1 - rect.x).toNat) /
              rect.width.toNat = (pos.2 - rect.y).toNat := by
            rw [Nat.mul_comm ((pos.2 - rect.y).toNat), Nat.mul_add_div hw,
              Nat.div_eq_of_lt hdxw]
            omega
          have hposx : rect.x + ((((pos.2 - rect.y).toNat * rect.width.toNat +
              (pos.1 - rect.x).toNat) % rect.width.toNat : Nat) : Int) = pos.1 := by
            rw [hmod]; omega
          have hposy : rect.y + ((((pos.2 - rect.y).toNat * rect.width.toNat +
              (pos.1 - rect.x).toNat) / rect.width.toNat : Nat) : Int) = pos.2 := by
            rw [hdiv]; omega
          have hchan : ∀ c, c < 3 →
              (alphaFold
                (punchAlpha rect.width.toNat rect.height.toNat
                  (fadeOf rect.width.toNat rect.height.toNat rho))
                (rect.width.toNat * rect.height.toNat)
                (pixelDataOf layer rect.x rect.y rect.width.toNat rect.height.toNat)).getD
                  (4 * ((pos.2 - rect.y).toNat * rect.width.toNat + (pos.1 - rect.x).toNat) + c) 0 =
              [(layer pos).1, (layer pos).2.1, (layer pos).2.2.1, (layer pos).2.2.2].getD c 0 := by
            intro c hc
            rw [alphaFold_getD_untouched _ _ _ _ (Or.inl (by omega))]
            rw [pixelDataOf_getD _ _ _ _ _ _ _ hp (by omega)]
            rw [show ((rect.x + ((((pos.2 - rect.y).toNat * rect.width.toNat +
                  (pos.1 - rect.x).toNat) % rect.width.toNat : Nat) : Int),
                rect.y + ((((pos.2 - rect.y).toNat * rect.width.toNat +
                  (pos.1 - rect.x).toNat) / rect.width.toNat : Nat) : Int)) : Int × Int) = pos by
              rw [Prod.ext_iff]
              exact ⟨hposx, hposy⟩]
          refine ⟨?_, ?_, ?_⟩
          · have := hchan 0 (by omega)
            simpa using this
          · have := hchan 1 (by omega)
            simpa using this
          · have := hchan 2 (by omega)
            simpa using this
        · rw [hpunch]
          unfold setPixelDataOf
          dsimp only
          rw [if_neg hin]
          exact ⟨rfl, rfl, rfl⟩

/-- Witness for C10 on a constant layer with a 2×2 region: a pixel outside
the footprint is untouched, the red byte inside is preserved, and the red
byte of a faded buffer is preserved. -/
theorem alpha_only_transforms_witness :
    punch_hole_on_layer (fun _ => (10, 20, 30, 40)) ⟨0, 0, 2, 2⟩ (1 / 5) (5, 5) =
      (10, 20, 30, 40) ∧
    (punch_hole_on_layer (fun _ => (10, 20, 30, 40)) ⟨0, 0, 2, 2⟩ (1 / 5) (0, 0)).1 = 10 ∧
    (apply_edge_fade [1, 2, 3, 4] 1 1 (1 / 5)).getD 0 0 = 1 := by
  obtain ⟨hedge, hpunch⟩ := alpha_only_transforms
  refine ⟨?_, ?_, ?_⟩
  · exact (hpunch (fun _ => (10, 20, 30, 40)) ⟨0, 0, 2, 2⟩ (1 / 5) (5, 5)).1 (by decide)
  · exact ((hpunch (fun _ => (10, 20, 30, 40)) ⟨0, 0, 2, 2⟩ (1 / 5) (0, 0)).2.1).trans rfl
  · exact ((hedge [1, 2, 3, 4] 1 1 (1 / 5)).2 0 (by decide)).trans rfl

/-! ### Pipeline orchestrator (`ComfyUIEnhancer._run_enhance`) -/

/-- `FileNotFoundError` raised for a missing global workflow or missing
global output image. -/
inductive RunErr where
  | fileNotFound
  | py (e : PyErr)
deriving DecidableEq

/-- Log lines of the run, modelled symbolically. -/
inductive LogMsg where
  | noDocument
  | cancelledBeforeRegion (idx : Nat)
  | noOutputForRegion (idx : Nat)
  | noRegionWorkflow
deriving DecidableEq

/-- Names of inserted layers. -/
inductive LayerName where
  | globalEnhance
  | regionEnhance (idx : Nat)
deriving DecidableEq

/-- Oracle for the effectful collaborator calls of one `_run_enhance` run.
Callbacks that may be invoked several times are indexed by a call counter:
`cancel` by cancellation checkpoint (0 before the exports, `i + 1` before
region `i`), `exportRegion` by export call, and `prepare` / `runWorkflow` /
`pollResult` / `findOutput` by job number (the global job first when it
runs, then one job per region). -/
structure EnhanceEnv where
  hasDoc : Bool
  regionRects : List RegionRect
  cancel : Nat → Bool
  exportFull : Except RunErr String
  exportRegion : Nat → Except RunErr String
  globalWorkflowPath : String
  regionWorkflowPath : String
  prepare : Nat → Except RunErr Unit
  runWorkflow : Nat → Except RunErr Unit
  pollResult : Nat → Except RunErr Unit
  findOutput : Nat → Option String
  insertOk : Nat → Bool

/-- Mutable state of one run: the `temp_files` list, ghost lists recording
every created export file and every file removed by the `finally` block,
the inserted layers, the rects hole-punched on the global layer, the log,
and the call counters. -/
structure RunSt where
  tempFiles : List String
  createdFiles : List String
  removedFiles : List String
  insertedLayers : List LayerName
  punchedRects : List RegionRect
  logs : List LogMsg
  cancelK : Nat
  exportK : Nat
  jobK : Nat
  insertK : Nat

/-- The initial run state. -/
def RunSt.init : RunSt :=
  { tempFiles := [], createdFiles := [], removedFiles := [], insertedLayers := [],
    punchedRects := [], logs := [], cancelK := 0, exportK := 0, jobK := 0, insertK := 0 }

/-- How the `try` body of `_run_enhance` exits: falling off the end
(the trailing status lines run), an early `return`, or an exception. -/
inductive BodyExit where
  | finished
  | returned
  | raised (e : RunErr)

/-- Stable insertion of a rect by ascending `x` (equal keys keep order). -/
def insertByX (r : RegionRect) : List RegionRect → List RegionRect
  | [] => [r]
  | s :: rest => if r.x ≤ s.x then r :: s :: rest else s :: insertByX r rest

/-- `region_rects.sort(key=lambda r: r.x)`: stable sort ascending by `x`. -/
def sortByX : List RegionRect → List RegionRect
  | [] => []
  | r :: rest => insertByX r (sortByX rest)

/-- One compile+submit+poll+locate sequence (`_prepare_workflow`,
`run_workflow`, `poll_result`, `_find_output_image`) for the current job
number.  Any raised step propagates; a completed job yields the located
output path, if any. -/
def runJob (env : EnhanceEnv) (st : RunSt) : RunSt × Except RunErr (Option String) :=
  let j := st.jobK
  let st := { st with jobK := j + 1 }
  match env.prepare j with
  | .error e => (st, .error e)
  | .ok () =>
    match env.runWorkflow j with
    | .error e => (st, .error e)
    | .ok () =>
      match env.pollResult j with
      | .error e => (st, .error e)
      | .ok () => (st, .ok (env.findOutput j))

/-- `_insert_layer_from_file`: returns a layer handle unless the image file
fails to load (then it logs and returns `None`). -/
def runInsert (env : EnhanceEnv) (st : RunSt) (name : LayerName) : RunSt × Option Unit :=
  let i := st.insertK
  let st := { st with insertK := i + 1 }
  if env.insertOk i then
    ({ st with insertedLayers := st.insertedLayers ++ [name] }, some ())
  else (st, none)

/-- The region export loop before any job (`for rect in region_rects`):
exports each region, appends the temp path, and collects
`(rect, path)` pairs; a raised export propagates. -/
def exportRegions (env : EnhanceEnv) :
    List RegionRect → RunSt → List (RegionRect × String) →
    RunSt × Except RunErr (List (RegionRect × String))
  | [], st, acc => (st, .ok acc)
  | rect :: rest, st, acc =>
    match env.exportRegion st.exportK with
    | .error e => ({ st with exportK := st.exportK + 1 }, .error e)
    | .ok path =>
        exportRegions env rest
          { st with exportK := st.exportK + 1,
                    tempFiles := st.tempFiles ++ [path],
                    createdFiles := st.createdFiles ++ [path] }
          (acc ++ [(rect, path)])

/-- The region-image resolution step at the top of each region iteration:
the image comes from the up-front exports when the index is in range (always
true in this flow); the re-export branch is embedded for fidelity and
appends a fresh temp file or propagates the raised export error. -/
def regionExportStep (env : EnhanceEnv) (rexp : List (RegionRect × String)) (idx : Nat)
    (st : RunSt) : RunSt × Option RunErr :=
  if idx < rexp.length then (st, none)
  else
    match env.exportRegion st.exportK with
    | .error e => ({ st with exportK := st.exportK + 1 }, some e)
    | .ok path =>
        ({ st with exportK := st.exportK + 1,
                   tempFiles := st.tempFiles ++ [path],
                   createdFiles := st.createdFiles ++ [path] }, none)

/-- `_punch_hole_on_layer` on the global layer when one exists (recorded in
the ghost `punchedRects`; its own try/except only logs). -/
def punchStep (globalLayer : Option Unit) (rect : RegionRect) (st : RunSt) : RunSt :=
  match globalLayer with
  | some _ => { st with punchedRects := st.punchedRects ++ [rect] }
  | none => st

/-- The per-region loop of `_run_enhance`: check cancellation (break),
resolve the region's input image, break on a missing region workflow, punch
a hole in the global layer when one exists, run the region job, and either
skip the region (output not found: log and continue with the next region)
or insert its layer.  The prompt selection `min(idx, 3)` only feeds logging
and the job payload, which the oracle absorbs. -/
def regionLoop (env : EnhanceEnv) (globalLayer : Option Unit)
    (rexp : List (RegionRect × String)) :
    Nat → List RegionRect → RunSt → RunSt × Option RunErr
  | _, [], st => (st, none)
  | idx, rect :: rest, st =>
    let c := env.cancel st.cancelK
    let st := { st with cancelK := st.cancelK + 1 }
    if c then
      ({ st with logs := st.logs ++ [.cancelledBeforeRegion idx] }, none)
    else
      let ex := regionExportStep env rexp idx st
      match ex.2 with
      | some e => (ex.1, some e)
      | none =>
        if env.regionWorkflowPath = "" then
          ({ ex.1 with logs := ex.1.logs ++ [.noRegionWorkflow] }, none)
        else
          let st2 := punchStep globalLayer rect ex.1
          let jr := runJob env st2
          match jr.2 with
          | .error e => (jr.1, some e)
          | .ok none =>
              regionLoop env globalLayer rexp (idx + 1) rest
                { jr.1 with logs := jr.1.logs ++ [.noOutputForRegion idx] }
          | .ok (some _) =>
              regionLoop env globalLayer rexp (idx + 1) rest
                (runInsert env jr.1 (.regionEnhance idx)).1

/-- The global phase of `_run_enhance`: skipped in region-only mode,
otherwise run the global job, raise `FileNotFoundError` when its output
image cannot be located, and insert the full-canvas layer (`None` when the
image fails to load). -/
def globalPhase (env : EnhanceEnv) (regionsOnly : Bool) (st : RunSt) :
    RunSt × Except RunErr (Option Unit) :=
  if regionsOnly then (st, .ok none)
  else
    let jr := runJob env st
    match jr.2 with
    | .error e => (jr.1, .error e)
    | .ok none => (jr.1, .error .fileNotFound)
    | .ok (some _) =>
        let ir := runInsert env jr.1 .globalEnhance
        (ir.1, .ok ir.2)

/-- The `try` body of `_run_enhance` (everything between `try:` and
`finally:`). -/
def enhanceBody (env : EnhanceEnv) (regionsOnly : Bool) (rects : List RegionRect)
    (st : RunSt) : RunSt × BodyExit :=
  let c := env.cancel st.cancelK
  let st := { st with cancelK := st.cancelK + 1 }
  if c then (st, .returned)
  else
    match env.exportFull with
    | .error e => (st, .raised e)
    | .ok globalPath =>
      let st := { st with tempFiles := st.tempFiles ++ [globalPath],
                          createdFiles := st.createdFiles ++ [globalPath] }
      let er := exportRegions env rects st []
      match er.2 with
      | .error e => (er.1, .raised e)
      | .ok regionExports =>
        if !regionsOnly && env.globalWorkflowPath = "" then (er.1, .raised .fileNotFound)
        else
          let gp := globalPhase env regionsOnly er.1
          match gp.2 with
          | .error e => (gp.1, .raised e)
          | .ok globalLayer =>
            let lr := regionLoop env globalLayer regionExports 0 rects gp.1
            match lr.2 with
            | some e => (lr.1, .raised e)
            | none => (lr.1, .finished)

/-- `ComfyUIEnhancer._run_enhance`: the no-document early return happens
before the `try`, so no temp file exists yet; every other exit path runs the
`finally` block, which removes each collected temp file (the modelled file
system makes `os.path.exists` true for every exported path and `os.remove`
succeed).  The second component is the exception propagating to the caller,
if any. -/
def run_enhance (env : EnhanceEnv) (regionsOnly : Bool) : RunSt × Option RunErr :=
  if env.hasDoc = false then
    ({ RunSt.init with logs := [.noDocument] }, none)
  else
    let rects := sortByX env.regionRects
    let r := enhanceBody env regionsOnly rects RunSt.init
    let st := { r.1 with removedFiles := r.1.removedFiles ++ r.1.tempFiles }
    match r.2 with
    | .raised e => (st, some e)
    | _ => (st, none)

/-! ### C8: temp files are deleted on every exit path -/

theorem runJob_state (env : EnhanceEnv) (st : RunSt) :
    (runJob env st).1 = { st with jobK := st.jobK + 1 } := by
  unfold runJob
  dsimp only
  repeat' split
  all_goals rfl

theorem runInsert_files (env : EnhanceEnv) (st : RunSt) (name : LayerName) :
    (runInsert env st name).1.tempFiles = st.tempFiles ∧
    (runInsert env st name).1.createdFiles = st.createdFiles ∧
    (runInsert env st name).1.removedFiles = st.removedFiles := by
  unfold runInsert
  dsimp only
  split <;> exact ⟨rfl, rfl, rfl⟩

theorem exportRegions_inv (env : EnhanceEnv) :
    ∀ (rects : List RegionRect) (st : RunSt) (acc : List (RegionRect × String)),
      st.tempFiles = st.createdFiles →
      (exportRegions env rects st acc).1.tempFiles =
        (exportRegions env rects st acc).1.createdFiles ∧
      (exportRegions env rects st acc).1.removedFiles = st.removedFiles
  | [], st, acc, h => ⟨h, rfl⟩
  | rect :: rest, st, acc, h => by
      unfold exportRegions
      split
      · exact ⟨h, rfl⟩
      · exact exportRegions_inv env rest _ _ (by simp [h])

theorem regionExportStep_files (env : EnhanceEnv) (rexp : List (RegionRect × String))
    (idx : Nat) (st : RunSt) (h : st.tempFiles = st.createdFiles) :
    (regionExportStep env rexp idx st).1.tempFiles =
      (regionExportStep env rexp idx st).1.createdFiles ∧
    (regionExportStep env rexp idx st).1.removedFiles = st.removedFiles := by
  unfold regionExportStep
  split
  · exact ⟨h, rfl⟩
  · split
    · exact ⟨h, rfl⟩
    · exact ⟨by simp [h], rfl⟩

theorem punchStep_files (gl : Option Unit) (rect : RegionRect) (st : RunSt) :
    (punchStep gl rect st).tempFiles = st.tempFiles ∧
    (punchStep gl rect st).createdFiles = st.createdFiles ∧
    (punchStep gl rect st).removedFiles = st.removedFiles := by
  unfold punchStep
  cases gl <;> exact ⟨rfl, rfl, rfl⟩

theorem regionLoop_inv (env : EnhanceEnv) (gl : Option Unit)
    (rexp : List (RegionRect × String)) :
    ∀ (rects : List RegionRect) (idx : Nat) (st : RunSt),
      st.tempFiles = st.createdFiles →
      (regionLoop env gl rexp idx rects st).1.tempFiles =
        (regionLoop env gl rexp idx rects st).1.createdFiles ∧
      (regionLoop env gl rexp idx rects st).1.removedFiles = st.removedFiles
  | [], idx, st, h => ⟨h, rfl⟩
  | rect :: rest, idx, st, h => by
      unfold regionLoop
      dsimp only
      split
      · exact ⟨h, rfl⟩
      · have hex := regionExportStep_files env rexp idx
          { st with cancelK := st.cancelK + 1 } h
        split
        · exact ⟨hex.1, hex.2⟩
        · split
          · exact ⟨hex.1, hex.2⟩
          · have hpu := punchStep_files gl rect
              (regionExportStep env rexp idx { st with cancelK := st.cancelK + 1 }).1
            have hjob := runJob_state env
              (punchStep gl rect
                (regionExportStep env rexp idx { st with cancelK := st.cancelK + 1 }).1)
            have hjf : (runJob env (punchStep gl rect
                (regionExportStep env rexp idx { st with cancelK := st.cancelK + 1 }).1)).1.tempFiles =
                  (runJob env (punchStep gl rect
                (regionExportStep env rexp idx { st with cancelK := st.cancelK + 1 }).1)).1.createdFiles ∧
                (runJob env (punchStep gl rect
                (regionExportStep env rexp idx { st with cancelK := st.cancelK + 1 }).1)).1.removedFiles =
                  st.removedFiles := by
              rw [hjob]
              exact ⟨by rw [show ({ (punchStep gl rect
                  (regionExportStep env rexp idx { st with cancelK := st.cancelK + 1 }).1) with
                    jobK := (punchStep gl rect
                  (regionExportStep env rexp idx { st with cancelK := st.cancelK + 1 }).1).jobK + 1
                  : RunSt }).tempFiles = (punchStep gl rect
                  (regionExportStep env rexp idx { st with cancelK := st.cancelK + 1 }).1).tempFiles from rfl,
                  hpu.1, hpu.2.1, hex.1],
                by rw [show ({ (punchStep gl rect
                  (regionExportStep env rexp idx { st with cancelK := st.cancelK + 1 }).1) with
                    jobK := (punchStep gl rect
                  (regionExportStep env rexp idx { st with cancelK := st.cancelK + 1 }).1).jobK + 1
                  : RunSt }).removedFiles = (punchStep gl rect
                  (regionExportStep env rexp idx { st with cancelK := st.cancelK + 1 }).1).removedFiles from rfl,
                  hpu.2.2, hex.2]⟩
            split
            · exact ⟨hjf.1, hjf.2⟩
            · have := regionLoop_inv env gl rexp rest (idx + 1)
                { (runJob env (punchStep gl rect
                    (regionExportStep env rexp idx { st with cancelK := st.cancelK + 1 }).1)).1 with
                  logs := (runJob env (punchStep gl rect
                    (regionExportStep env rexp idx { st with cancelK := st.cancelK + 1 }).1)).1.logs ++
                    [.noOutputForRegion idx] } (by simpa using hjf.1)
              exact ⟨this.1, this.2.trans hjf.2⟩
            · have hins := runInsert_files env (runJob env (punchStep gl rect
                (regionExportStep env rexp idx { st with cancelK := st.cancelK + 1 }).1)).1
                (.regionEnhance idx)
              have := regionLoop_inv env gl rexp rest (idx + 1)
                (runInsert env (runJob env (punchStep gl rect
                  (regionExportStep env rexp idx { st with cancelK := st.cancelK + 1 }).1)).1
                  (.regionEnhance idx)).1
                (by rw [hins.1, hins.2.1]; exact hjf.1)
              exact ⟨this.1, this.2.trans (hins.2.2.trans hjf.2)⟩

theorem globalPhase_files (env : EnhanceEnv) (regionsOnly : Bool) (st : RunSt)
    (h : st.tempFiles = st.createdFiles) :
    (globalPhase env regionsOnly st).1.tempFiles =
      (globalPhase env regionsOnly st).1.createdFiles ∧
    (globalPhase env regionsOnly st).1.removedFiles = st.removedFiles := by
  unfold globalPhase
  split
  · exact ⟨h, rfl⟩
  · dsimp only
    have hjob := runJob_state env st
    have hjf : (runJob env st).1.tempFiles = (runJob env st).1.createdFiles ∧
        (runJob env st).1.removedFiles = st.removedFiles := by
      rw [hjob]
      exact ⟨h, rfl⟩
    split
    · exact ⟨hjf.1, hjf.2⟩
    · exact ⟨hjf.1, hjf.2⟩
    · have hins := runInsert_files env (runJob env st).1 .globalEnhance
      exact ⟨by rw [hins.1, hins.2.1]; exact hjf.1, hins.2.2.trans hjf.2⟩

theorem enhanceBody_inv (env : EnhanceEnv) (regionsOnly : Bool) (rects : List RegionRect)
    (st : RunSt) (h : st.tempFiles = st.createdFiles) :
    (enhanceBody env regionsOnly rects st).1.tempFiles =
      (enhanceBody env regionsOnly rects st).1.createdFiles ∧
    (enhanceBody env regionsOnly rects st).1.removedFiles = st.removedFiles := by
  unfold enhanceBody
  dsimp only
  split
  · exact ⟨h, rfl⟩
  · split
    · exact ⟨h, rfl⟩
    · rename_i globalPath heq
      have her := exportRegions_inv env rects
        { st with cancelK := st.cancelK + 1,
                  tempFiles := st.tempFiles ++ [globalPath],
                  createdFiles := st.createdFiles ++ [globalPath] } [] (by simp [h])
      split
      · exact her
      · rename_i regionExports heqExp
        split
        · exact her
        · have hgp := globalPhase_files env regionsOnly
            (exportRegions env rects
              { st with cancelK := st.cancelK + 1,
                        tempFiles := st.tempFiles ++ [globalPath],
                        createdFiles := st.createdFiles ++ [globalPath] } []).1 her.1
          split
          · exact ⟨hgp.1, hgp.2.trans her.2⟩
          · rename_i globalLayer heqGp
            have hrl := regionLoop_inv env globalLayer regionExports rects 0
              (globalPhase env regionsOnly
                (exportRegions env rects
                  { st with cancelK := st.cancelK + 1,
                            tempFiles := st.tempFiles ++ [globalPath],
                            createdFiles := st.createdFiles ++ [globalPath] } []).1).1 hgp.1
            split
            · exact ⟨hrl.1, hrl.2.trans (hgp.2.trans her.2)⟩
            · exact ⟨hrl.1, hrl.2.trans (hgp.2.trans her.2)⟩

/-- C8: on every exit path of a run — normal completion, cancellation, and
any raised failure — the `finally` block deletes every temporary exported
input file created during the run: the removed files are exactly the
collected temp files, which are exactly the created export files. -/
theorem run_enhance_removes_all_temp_files (env : EnhanceEnv) (regionsOnly : Bool) :
    (run_enhance env regionsOnly).1.removedFiles =
      (run_enhance env regionsOnly).1.createdFiles ∧
    (run_enhance env regionsOnly).1.tempFiles =
      (run_enhance env regionsOnly).1.createdFiles := by
  unfold run_enhance
  split
  · exact ⟨rfl, rfl⟩
  · have hbody := enhanceBody_inv env regionsOnly (sortByX env.regionRects) RunSt.init rfl
    have hrem : (enhanceBody env regionsOnly (sortByX env.regionRects) RunSt.init).1.removedFiles
        = [] := hbody.2
    dsimp only
    split <;>
      exact ⟨by simp [hrem, hbody.1], hbody.1⟩

/-! ### C9: per-region output-not-found is recovered locally -/

theorem regionExportStep_in_range (env : EnhanceEnv) (rexp : List (RegionRect × String))
    (idx : Nat) (st : RunSt) (h : idx < rexp.length) :
    regionExportStep env rexp idx st = (st, none) := by
  unfold regionExportStep
  rw [if_pos h]

theorem punchStep_state (gl : Option Unit) (rect : RegionRect) (st : RunSt) :
    (punchStep gl rect st).jobK = st.jobK ∧
    (punchStep gl rect st).insertedLayers = st.insertedLayers ∧
    (punchStep gl rect st).logs = st.logs ∧
    (punchStep gl rect st).cancelK = st.cancelK ∧
    (punchStep gl rect st).insertK = st.insertK := by
  unfold punchStep
  cases gl <;> exact ⟨rfl, rfl, rfl, rfl, rfl⟩

theorem runJob_success (env : EnhanceEnv) (st : RunSt)
    (hprep : env.prepare st.jobK = .ok ())
    (hrun : env.runWorkflow st.jobK = .ok ())
    (hpoll : env.pollResult st.jobK = .ok ()) :
    runJob env st = ({ st with jobK := st.jobK + 1 }, .ok (env.findOutput st.jobK)) := by
  unfold runJob
  dsimp only
  rw [hprep, hrun, hpoll]

theorem runInsert_success (env : EnhanceEnv) (st : RunSt) (name : LayerName)
    (h : env.insertOk st.insertK = true) :
    runInsert env st name =
      ({ st with insertK := st.insertK + 1,
                 insertedLayers := st.insertedLayers ++ [name] }, some ()) := by
  unfold runInsert
  dsimp only
  rw [h]
  simp

theorem exportRegions_success (env : EnhanceEnv)
    (hreg : ∀ k, ∃ p, env.exportRegion k = .ok p) :
    ∀ (rects : List RegionRect) (st : RunSt) (acc : List (RegionRect × String)),
      ∃ st2 acc2, exportRegions env rects st acc = (st2, .ok acc2) ∧
        acc2.length = acc.length + rects.length ∧
        st2.jobK = st.jobK ∧ st2.insertK = st.insertK ∧
        st2.insertedLayers = st.insertedLayers ∧
        st2.logs = st.logs ∧ st2.cancelK = st.cancelK
  | [], st, acc => ⟨st, acc, rfl, by simp, rfl, rfl, rfl, rfl, rfl⟩
  | rect :: rest, st, acc => by
      obtain ⟨p, hp⟩ := hreg st.exportK
      obtain ⟨st2, acc2, heq, hlen, hrest⟩ := exportRegions_success env hreg rest
        { st with exportK := st.exportK + 1,
                  tempFiles := st.tempFiles ++ [p],
                  createdFiles := st.createdFiles ++ [p] }
        (acc ++ [(rect, p)])
      refine ⟨st2, acc2, ?_, by simp at hlen ⊢; omega, hrest⟩
      unfold exportRegions
      rw [hp]
      exact heq

/-- The region layers a successful run inserts, in order: one layer per
region whose output image is located, skipping the regions whose output is
missing.  `j0` is the job number of the first region job and `idx` its
region index. -/
def expectedRegionLayers (env : EnhanceEnv) : Nat → Nat → Nat → List LayerName
  | _, _, 0 => []
  | j0, idx, n + 1 =>
      (if (env.findOutput j0).isSome then [LayerName.regionEnhance idx] else []) ++
      expectedRegionLayers env (j0 + 1) (idx + 1) n

theorem expectedRegionLayers_succ (env : EnhanceEnv) (j0 idx n : Nat) :
    expectedRegionLayers env j0 idx (n + 1) =
      (if (env.findOutput j0).isSome then [LayerName.regionEnhance idx] else []) ++
      expectedRegionLayers env (j0 + 1) (idx + 1) n := rfl

theorem regionLoop_success (env : EnhanceEnv) (gl : Option Unit)
    (rexp : List (RegionRect × String))
    (hcancel : ∀ k, env.cancel k = false)
    (hwf : ¬ env.regionWorkflowPath = "")
    (hprep : ∀ j, env.prepare j = .ok ())
    (hrun : ∀ j, env.runWorkflow j = .ok ())
    (hpoll : ∀ j, env.pollResult j = .ok ())
    (hins : ∀ i, env.insertOk i = true) :
    ∀ (rects : List RegionRect) (idx : Nat) (st : RunSt),
      idx + rects.length ≤ rexp.length →
      (regionLoop env gl rexp idx rects st).2 = none ∧
      (regionLoop env gl rexp idx rects st).1.jobK = st.jobK + rects.length ∧
      (regionLoop env gl rexp idx rects st).1.insertedLayers =
        st.insertedLayers ++ expectedRegionLayers env st.jobK idx rects.length ∧
      (∀ m ∈ st.logs, m ∈ (regionLoop env gl rexp idx rects st).1.logs) ∧
      (∀ i, i < rects.length → env.findOutput (st.jobK + i) = none →
        LogMsg.noOutputForRegion (idx + i) ∈ (regionLoop env gl rexp idx rects st).1.logs)
  | [], idx, st, hb => by
      refine ⟨rfl, by simp [regionLoop], ?_, fun m hm => hm, fun i hi => by simp at hi⟩
      simp [regionLoop, expectedRegionLayers]
  | rect :: rest, idx, st, hb => by
      have hidx : idx < rexp.length := by
        have := rect :: rest
        simp at hb
        omega
      unfold regionLoop
      dsimp only
      rw [hcancel st.cancelK]
      rw [if_neg (by simp)]
      rw [regionExportStep_in_range env rexp idx _ hidx]
      dsimp only
      rw [if_neg hwf]
      have hpu := punchStep_state gl rect { st with cancelK := st.cancelK + 1 }
      set stP := punchStep gl rect { st with cancelK := st.cancelK + 1 } with hstP
      have hjob := runJob_success env stP (hprep _) (hrun _) (hpoll _)
      rw [hjob]
      dsimp only
      have hjk : stP.jobK = st.jobK := hpu.1
      cases hout : env.findOutput stP.jobK with
      | none =>
          set stN : RunSt := { stP with
            jobK := stP.jobK + 1
            logs := stP.logs ++ [.noOutputForRegion idx] } with hstN
          have hrec := regionLoop_success env gl rexp hcancel hwf hprep hrun hpoll hins
            rest (idx + 1) stN (by simp only [List.length_cons] at hb; omega)
          have hshape : (regionLoop env gl rexp (idx + 1) rest
              { { stP with jobK := stP.jobK + 1 } with
                logs := { stP with jobK := stP.jobK + 1 }.logs ++ [.noOutputForRegion idx] }) =
              regionLoop env gl rexp (idx + 1) rest stN := rfl
          rw [hshape]
          have hNj : stN.jobK = st.jobK + 1 := by rw [hstN]; simp [hjk]
          have hNins : stN.insertedLayers = st.insertedLayers := by
            rw [hstN]
            simpa using hpu.2.1
          have hNlogs : stN.logs = st.logs ++ [.noOutputForRegion idx] := by
            rw [hstN]
            simpa using congrArg (· ++ [LogMsg.noOutputForRegion idx]) hpu.2.2.1
          refine ⟨hrec.1, ?_, ?_, ?_, ?_⟩
          · rw [hrec.2.1, hNj]
            simp only [List.length_cons]
            omega
          · rw [hrec.2.2.1, hNins, hNj]
            simp only [List.length_cons]
            rw [expectedRegionLayers_succ, ← hjk, hout]
            simp
          · intro m hm
            apply hrec.2.2.2.1
            rw [hNlogs]
            exact List.mem_append.mpr (Or.inl hm)
          · intro i hi hnone
            simp only [List.length_cons] at hi
            cases i with
            | zero =>
                apply hrec.2.2.2.1
                rw [hNlogs]
                simp
            | succ k =>
                have hk := hrec.2.2.2.2 k (by omega)
                  (by rw [hNj, show st.jobK + 1 + k = st.jobK + (k + 1) from by omega]; exact hnone)
                rw [show idx + (k + 1) = idx + 1 + k from by omega]
                exact hk
      | some out =>
          have hinsS := runInsert_success env { stP with jobK := stP.jobK + 1 }
            (.regionEnhance idx) (hins _)
          rw [hinsS]
          dsimp only
          set stI : RunSt := { stP with
            jobK := stP.jobK + 1
            insertK := stP.insertK + 1
            insertedLayers := stP.insertedLayers ++ [.regionEnhance idx] } with hstI
          have hrec := regionLoop_success env gl rexp hcancel hwf hprep hrun hpoll hins
            rest (idx + 1) stI (by simp only [List.length_cons] at hb; omega)
          have hIj : stI.jobK = st.jobK + 1 := by rw [hstI]; simp [hjk]
          have hIins : stI.insertedLayers = st.insertedLayers ++ [.regionEnhance idx] := by
            rw [hstI]
            simpa using congrArg (· ++ [LayerName.regionEnhance idx]) hpu.2.1
          have hIlogs : stI.logs = st.logs := by
            rw [hstI]
            simpa using hpu.2.2.1
          refine ⟨hrec.1, ?_, ?_, ?_, ?_⟩
          · exact hrec.2.1.trans (by rw [hIj]; simp only [List.length_cons]; omega)
          · refine hrec.2.2.1.trans ?_
            rw [hIins, hIj]
            simp only [List.length_cons]
            rw [expectedRegionLayers_succ, ← hjk, hout]
            simp
          · exact fun m hm => hrec.2.2.2.1 m (hIlogs.symm ▸ hm)
          · intro i hi hnone
            simp only [List.length_cons] at hi
            cases i with
            | zero =>
                exfalso
                rw [Nat.add_zero, ← hjk, hout] at hnone
                exact Option.noConfusion hnone
            | succ k =>
                have hk := hrec.2.2.2.2 k (by omega)
                  (by rw [hIj, show st.jobK + 1 + k = st.jobK + (k + 1) from by omega]; exact hnone)
                rw [show idx + (k + 1) = idx + 1 + k from by omega]
                exact hk

/-- The concrete run state after the cancellation checkpoint and the
full-image export at the start of a run. -/
def stAfterFull (pF : String) : RunSt :=
  { tempFiles := [pF], createdFiles := [pF], removedFiles := [], insertedLayers := [],
    punchedRects := [], logs := [], cancelK := 1, exportK := 0, jobK := 0, insertK := 0 }

theorem enhanceBody_true_eq (env : EnhanceEnv) (rects : List RegionRect)
    (pF : String) (rexp : List (RegionRect × String)) (stE : RunSt)
    (hcancel0 : env.cancel 0 = false)
    (hpF : env.exportFull = .ok pF)
    (heqE : exportRegions env rects (stAfterFull pF) [] = (stE, .ok rexp)) :
    enhanceBody env true rects RunSt.init =
      (match (regionLoop env none rexp 0 rects stE).2 with
       | some e => ((regionLoop env none rexp 0 rects stE).1, .raised e)
       | none => ((regionLoop env none rexp 0 rects stE).1, .finished)) := by
  unfold enhanceBody
  dsimp only
  rw [show RunSt.init.cancelK = 0 from rfl, hcancel0]
  rw [if_neg (by simp)]
  rw [hpF]
  dsimp only
  have heqE2 : exportRegions env rects
      { tempFiles := RunSt.init.tempFiles ++ [pF], createdFiles := RunSt.init.createdFiles ++ [pF],
        removedFiles := RunSt.init.removedFiles, insertedLayers := RunSt.init.insertedLayers,
        punchedRects := RunSt.init.punchedRects, logs := RunSt.init.logs, cancelK := 0 + 1,
        exportK := RunSt.init.exportK, jobK := RunSt.init.jobK, insertK := RunSt.init.insertK } []
      = (stE, .ok rexp) := heqE
  rw [heqE2]
  dsimp only
  rw [if_neg (by simp)]
  rw [show globalPhase env true stE = (stE, .ok none) from rfl]

theorem enhanceBody_false_eq (env : EnhanceEnv) (rects : List RegionRect)
    (pF : String) (rexp : List (RegionRect × String)) (stE : RunSt) (o : String)
    (hcancel0 : env.cancel 0 = false)
    (hpF : env.exportFull = .ok pF)
    (heqE : exportRegions env rects (stAfterFull pF) [] = (stE, .ok rexp))
    (hgw : ¬ env.globalWorkflowPath = "")
    (hprepG : env.prepare stE.jobK = .ok ())
    (hrunG : env.runWorkflow stE.jobK = .ok ())
    (hpollG : env.pollResult stE.jobK = .ok ())
    (houtG : env.findOutput stE.jobK = some o)
    (hinsG : env.insertOk stE.insertK = true) :
    enhanceBody env false rects RunSt.init =
      (match (regionLoop env (some ()) rexp 0 rects
          { stE with jobK := stE.jobK + 1, insertK := stE.insertK + 1,
                     insertedLayers := stE.insertedLayers ++ [.globalEnhance] }).2 with
       | some e => ((regionLoop env (some ()) rexp 0 rects
          { stE with jobK := stE.jobK + 1, insertK := stE.insertK + 1,
                     insertedLayers := stE.insertedLayers ++ [.globalEnhance] }).1, .raised e)
       | none => ((regionLoop env (some ()) rexp 0 rects
          { stE with jobK := stE.jobK + 1, insertK := stE.insertK + 1,
                     insertedLayers := stE.insertedLayers ++ [.globalEnhance] }).1,
          .finished)) := by
  have hgp : globalPhase env false stE =
      ({ stE with jobK := stE.jobK + 1, insertK := stE.insertK + 1,
                  insertedLayers := stE.insertedLayers ++ [.globalEnhance] },
       .ok (some ())) := by
    unfold globalPhase
    rw [if_neg (by simp)]
    rw [runJob_success env stE hprepG hrunG hpollG]
    dsimp only
    rw [houtG]
    rw [runInsert_success env { stE with jobK := stE.jobK + 1 } .globalEnhance hinsG]
  unfold enhanceBody
  dsimp only
  rw [show RunSt.init.cancelK = 0 from rfl, hcancel0]
  rw [if_neg (by simp)]
  rw [hpF]
  dsimp only
  have heqE2 : exportRegions env rects
      { tempFiles := RunSt.init.tempFiles ++ [pF], createdFiles := RunSt.init.createdFiles ++ [pF],
        removedFiles := RunSt.init.removedFiles, insertedLayers := RunSt.init.insertedLayers,
        punchedRects := RunSt.init.punchedRects, logs := RunSt.init.logs, cancelK := 0 + 1,
        exportK := RunSt.init.exportK, jobK := RunSt.init.jobK, insertK := RunSt.init.insertK } []
      = (stE, .ok rexp) := heqE
  rw [heqE2]
  dsimp only
  rw [if_neg (by simp [hgw])]
  rw [hgp]

/-- C9: in a run where the document, exports, workflows and job
infrastructure all cooperate, a region whose completed job yields no
locatable output image is recovered locally: the miss is logged as a
per-region message, only that region's layer insertion is skipped, no error
propagates out of `_run_enhance`, and every subsequent region is still
processed in order - one job runs per region and exactly the regions whose
output is found get a layer, in order. -/
theorem region_output_not_found_recovers (env : EnhanceEnv) (regionsOnly : Bool)
    (hdoc : env.hasDoc = true)
    (hcancel : ∀ k, env.cancel k = false)
    (hfull : ∃ p, env.exportFull = .ok p)
    (hreg : ∀ k, ∃ p, env.exportRegion k = .ok p)
    (hwf : ¬ env.regionWorkflowPath = "")
    (hprep : ∀ j, env.prepare j = .ok ())
    (hrun : ∀ j, env.runWorkflow j = .ok ())
    (hpoll : ∀ j, env.pollResult j = .ok ())
    (hins : ∀ i, env.insertOk i = true)
    (hgw : ¬ env.globalWorkflowPath = "")
    (hout0 : regionsOnly = false → (env.findOutput 0).isSome) :
    (run_enhance env regionsOnly).2 = none ∧
    (run_enhance env regionsOnly).1.jobK =
      (if regionsOnly then 0 else 1) + (sortByX env.regionRects).length ∧
    (run_enhance env regionsOnly).1.insertedLayers =
      (if regionsOnly then [] else [LayerName.globalEnhance]) ++
        expectedRegionLayers env (if regionsOnly then 0 else 1) 0
          (sortByX env.regionRects).length ∧
    (∀ i, i < (sortByX env.regionRects).length →
      env.findOutput ((if regionsOnly then 0 else 1) + i) = none →
      LogMsg.noOutputForRegion i ∈ (run_enhance env regionsOnly).1.logs) := by
  obtain ⟨pF, hpF⟩ := hfull
  obtain ⟨stE, rexp, heqE, hlen, hjkE, hikE, hilE, hlogE, hckE⟩ :=
    exportRegions_success env hreg (sortByX env.regionRects) (stAfterFull pF) []
  have hjk0 : stE.jobK = 0 := hjkE
  have hik0 : stE.insertK = 0 := hikE
  have hil0 : stE.insertedLayers = [] := hilE
  have hlog0 : stE.logs = [] := hlogE
  have hlenE : (sortByX env.regionRects).length ≤ rexp.length := by
    simp at hlen
    omega
  unfold run_enhance
  rw [if_neg (by simp [hdoc])]
  dsimp only
  cases regionsOnly with
  | true =>
      rw [enhanceBody_true_eq env _ pF rexp stE (hcancel 0) hpF heqE]
      have hloop := regionLoop_success env none rexp hcancel hwf hprep hrun hpoll hins
        (sortByX env.regionRects) 0 stE (by simpa using hlenE)
      rw [hloop.1]
      dsimp only
      refine ⟨rfl, ?_, ?_, ?_⟩
      · rw [hloop.2.1, hjk0]
        simp
      · rw [hloop.2.2.1, hil0, hjk0]
        simp
      · intro i hi hnone
        have := hloop.2.2.2.2 i hi (by rw [hjk0]; simpa using hnone)
        simpa using this
  | false =>
      obtain ⟨o, ho⟩ := Option.isSome_iff_exists.mp (hout0 rfl)
      have ho' : env.findOutput stE.jobK = some o := by rw [hjk0]; exact ho
      rw [enhanceBody_false_eq env _ pF rexp stE o (hcancel 0) hpF heqE hgw
        (hprep _) (hrun _) (hpoll _) ho' (hins _)]
      have hloop := regionLoop_success env (some ()) rexp hcancel hwf hprep hrun hpoll hins
        (sortByX env.regionRects) 0
        { stE with jobK := stE.jobK + 1, insertK := stE.insertK + 1,
                   insertedLayers := stE.insertedLayers ++ [.globalEnhance] }
        (by simpa using hlenE)
      rw [hloop.1]
      dsimp only
      refine ⟨rfl, ?_, ?_, ?_⟩
      · rw [hloop.2.1]
        dsimp only
        rw [hjk0]
        simp
      · rw [hloop.2.2.1]
        dsimp only
        rw [hil0, hjk0]
        simp
      · intro i hi hnone
        have := hloop.2.2.2.2 i hi (by dsimp only; rw [hjk0]; simpa using hnone)
        simpa using this

/-- A concrete run with two regions in which the second region job's output
image cannot be located. -/
def envW : EnhanceEnv :=
  { hasDoc := true
    regionRects := [⟨5, 0, 2, 2⟩, ⟨1, 0, 2, 2⟩]
    cancel := fun _ => false
    exportFull := .ok "full.png"
    exportRegion := fun k => .ok (if k = 0 then "r0.png" else "r1.png")
    globalWorkflowPath := "g.json"
    regionWorkflowPath := "r.json"
    prepare := fun _ => .ok ()
    runWorkflow := fun _ => .ok ()
    pollResult := fun _ => .ok ()
    findOutput := fun j => if j = 2 then none else some "out.png"
    insertOk := fun _ => true }

theorem region_output_not_found_recovers_witness :
    (run_enhance envW false).2 = none ∧
    LogMsg.noOutputForRegion 1 ∈ (run_enhance envW false).1.logs ∧
    (run_enhance envW false).1.insertedLayers =
      [LayerName.globalEnhance, LayerName.regionEnhance 0] ∧
    (run_enhance envW false).1.jobK = 3 := by
  have h := region_output_not_found_recovers envW false rfl (fun _ => rfl)
    ⟨"full.png", rfl⟩ (fun k => ⟨_, rfl⟩) (by simp [envW]) (fun _ => rfl) (fun _ => rfl)
    (fun _ => rfl) (fun _ => rfl) (by simp [envW]) (fun _ => rfl)
  refine ⟨h.1, ?_, ?_, ?_⟩
  · exact h.2.2.2 1 (by decide) (by decide)
  · rw [h.2.2.1]
    decide
  · rw [h.2.1]
    decide

/-! ### C1: the region segmenter on a two-blob mask -/

/-- `alpha_at` of `_extract_mask_components`: the alpha sample of pixel
`idx` in a buffer with the given channel count. -/
def alpha_at (buf : List Nat) (channels : Nat) (idx : Nat) : Nat :=
  if channels = 1 then buf.getD idx 0
  else if 4 ≤ channels then buf.getD (idx * channels + 3) 0
  else buf.getD (idx * channels) 0

/-- The flood-fill state of `_extract_mask_components`: the `visited`
byte array, the DFS `stack` (head is the most recently pushed entry, the
one `stack.pop()` returns), and the running bounding box of the component
being traced. -/
structure FloodSt where
  visited : List Bool
  stack : List Nat
  minx : Nat
  maxx : Nat
  miny : Nat
  maxy : Nat

/-- The in-bounds part of one neighbour probe of the DFS, at neighbour
grid coordinates `(nxn, nyn)`: skip a visited neighbour, mark a
transparent neighbour visited, and mark+push a foreground neighbour,
widening the bounding box. -/
def probe (alpha : Nat → Nat) (nxn nyn w : Nat) (st : FloodSt) : FloodSt :=
  let nidx := nyn * w + nxn
  if st.visited.getD nidx true then st
  else if alpha nidx = 0 then { st with visited := st.visited.set nidx true }
  else
    { st with visited := st.visited.set nidx true,
              stack := nidx :: st.stack,
              minx := if nxn < st.minx then nxn else st.minx,
              maxx := if st.maxx < nxn then nxn else st.maxx,
              miny := if nyn < st.miny then nyn else st.miny,
              maxy := if st.maxy < nyn then nyn else st.maxy }

/-- One neighbour probe including the `0 <= nx < width and 0 <= ny < height`
bounds check (the offsets can be `-1`, hence the signed coordinates). -/
def neighStep (w h : Nat) (alpha : Nat → Nat) (nx ny : Int) (st : FloodSt) : FloodSt :=
  if 0 ≤ nx ∧ nx < (w : Int) ∧ 0 ≤ ny ∧ ny < (h : Int) then
    probe alpha nx.toNat ny.toNat w st
  else st

/-- The body of one `while stack:` iteration after popping `p`: probe the
four neighbours `(1,0), (-1,0), (0,1), (0,-1)` in source order. -/
def floodIter (w h : Nat) (alpha : Nat → Nat) (p : Nat) (st : FloodSt) : FloodSt :=
  let x := p % w
  let y := p / w
  neighStep w h alpha (x : Int) ((y : Int) - 1)
    (neighStep w h alpha (x : Int) ((y : Int) + 1)
      (neighStep w h alpha ((x : Int) - 1) (y : Int)
        (neighStep w h alpha ((x : Int) + 1) (y : Int) st)))

/-- The `while stack:` DFS loop, run with a fuel that bounds its iteration
count (each iteration pops one entry, and entries are pushed at most once
per pixel, so `floodFuel` below always suffices and the loop drains the
stack). -/
def floodGo (w h : Nat) (alpha : Nat → Nat) : Nat → FloodSt → FloodSt
  | 0, st => st
  | fuel + 1, st =>
    match st.stack with
    | [] => st
    | p :: rest => floodGo w h alpha fuel (floodIter w h alpha p { st with stack := rest })

/-- An upper bound on the remaining `while stack:` iterations: every
iteration pops one entry and pushes one entry per pixel it newly visits. -/
def floodFuel (st : FloodSt) : Nat := st.visited.count false + st.stack.length

/-- The complete `while stack:` DFS of one component. -/
def flood (w h : Nat) (alpha : Nat → Nat) (st : FloodSt) : FloodSt :=
  floodGo w h alpha (floodFuel st) st

/-- The outer `for idx in range(pixel_count)` loop: skip visited pixels,
mark transparent pixels visited, and flood-fill each new foreground seed
into one `RegionRect`, stopping after 32 components. -/
def extractGo (w h : Nat) (alpha : Nat → Nat) (x0 y0 : Int) :
    Nat → Nat → List Bool → List RegionRect → List RegionRect
  | 0, _, _, comps => comps
  | n + 1, idx, visited, comps =>
    if visited.getD idx true then extractGo w h alpha x0 y0 n (idx + 1) visited comps
    else if alpha idx = 0 then
      extractGo w h alpha x0 y0 n (idx + 1) (visited.set idx true) comps
    else
      let fin := flood w h alpha
        ⟨visited.set idx true, [idx], idx % w, idx % w, idx / w, idx / w⟩
      let comps2 := comps ++
        [⟨x0 + (fin.minx : Int), y0 + (fin.miny : Int),
          (fin.maxx : Int) - (fin.minx : Int) + 1,
          (fin.maxy : Int) - (fin.miny : Int) + 1⟩]
      if 32 ≤ comps2.length then comps2
      else extractGo w h alpha x0 y0 n (idx + 1) fin.visited comps2

/-- `_extract_mask_components` from the alpha samples of the mask's
pixel buffer (`alpha idx` is `alpha_at(idx)`; `x0, y0` is the mask
origin). -/
def extractComponents (w h : Nat) (alpha : Nat → Nat) (x0 y0 : Int) : List RegionRect :=
  extractGo w h alpha x0 y0 (w * h) 0 (List.replicate (w * h) false) []

/-- `_extract_mask_components` on the raw pixel buffer: empty data or an
empty pixel grid yield no components, otherwise the channel count is
derived from the buffer size and the alpha channel is scanned. -/
def extract_mask_components (buf : List Nat) (w h : Nat) (x0 y0 : Int) :
    List RegionRect :=
  if buf.isEmpty then []
  else if w * h = 0 then []
  else extractComponents w h (alpha_at buf (max 1 (buf.length / (w * h)))) x0 y0

/-- 4-adjacency of two in-bounds pixel indices of a `w × h` row-major
grid: same row and adjacent columns, or same column and adjacent rows. -/
def adjb (w h p q : Nat) : Bool :=
  decide (p < w * h) && decide (q < w * h) &&
    ((decide (p / w = q / w) && (decide (q % w = p % w + 1) || decide (p % w = q % w + 1))) ||
     (decide (p % w = q % w) && (decide (q / w = p / w + 1) || decide (p / w = q / w + 1))))

/-- One step of the flood fill: a 4-neighbour with nonzero alpha. -/
def stepFG (w h : Nat) (alpha : Nat → Nat) (p q : Nat) : Prop :=
  adjb w h p q = true ∧ alpha q ≠ 0

/-- Same-blob reachability: the reflexive-transitive closure of
foreground 4-adjacency. -/
def ReachFG (w h : Nat) (alpha : Nat → Nat) : Nat → Nat → Prop :=
  Relation.ReflTransGen (stepFG w h alpha)

/-- `r` is the axis-aligned bounding box of the pixel index set `B`:
its edges are the minimal and maximal grid coordinates of `B`'s pixels,
offset by the mask origin `(x0, y0)`. -/
def isBBox (w : Nat) (x0 y0 : Int) (B : Nat → Prop) (r : RegionRect) : Prop :=
  (∀ i, B i → r.x ≤ x0 + ((i % w : Nat) : Int) ∧ x0 + ((i % w : Nat) : Int) ≤ r.x + r.width - 1 ∧
    r.y ≤ y0 + ((i / w : Nat) : Int) ∧ y0 + ((i / w : Nat) : Int) ≤ r.y + r.height - 1) ∧
  (∃ i, B i ∧ x0 + ((i % w : Nat) : Int) = r.x) ∧
  (∃ i, B i ∧ x0 + ((i % w : Nat) : Int) = r.x + r.width - 1) ∧
  (∃ i, B i ∧ y0 + ((i / w : Nat) : Int) = r.y) ∧
  (∃ i, B i ∧ y0 + ((i / w : Nat) : Int) = r.y + r.height - 1)

theorem getDB_set_of_ne (l : List Bool) (i j : Nat) (v : Bool) (h : i ≠ j) :
    (l.set i v).getD j true = l.getD j true := by
  simp [List.getD, List.getElem?_set_ne h]

theorem getDB_set_of_eq (l : List Bool) (i : Nat) (v : Bool) (h : i < l.length) :
    (l.set i v).getD i true = v := by
  simp [List.getD, List.getElem?_set_self, h]

theorem getDB_of_ge (l : List Bool) (i : Nat) (h : l.length ≤ i) :
    l.getD i true = true := by
  simp [List.getD, List.getElem?_eq_none h]

theorem getDB_lt_of_false (l : List Bool) (i : Nat) (h : l.getD i true = false) :
    i < l.length := by
  by_contra hge
  rw [getDB_of_ge l i (by omega)] at h
  exact Bool.noConfusion h

theorem getDB_replicate_lt (n i : Nat) (h : i < n) :
    (List.replicate n false).getD i true = false := by
  simp [List.getD, List.getElem?_replicate, h]

theorem count_false_set_true (l : List Bool) (i : Nat) (h : l.getD i true = false) :
    (l.set i true).count false + 1 = l.count false := by
  induction l generalizing i with
  | nil => simp [List.getD] at h
  | cons a t ih =>
      cases i with
      | zero =>
          simp [List.getD] at h
          subst h
          simp [List.count_cons]
      | succ j =>
          have hj := ih j (by simpa [List.getD] using h)
          simp only [List.set, List.count_cons]
          omega

theorem adjb_iff (w h p q : Nat) :
    adjb w h p q = true ↔ p < w * h ∧ q < w * h ∧
      ((p / w = q / w ∧ (q % w = p % w + 1 ∨ p % w = q % w + 1)) ∨
       (p % w = q % w ∧ (q / w = p / w + 1 ∨ p / w = q / w + 1))) := by
  simp [adjb, and_assoc]

theorem adj_enum (w h p q : Nat) (hadj : adjb w h p q = true) :
    q < w * h ∧
    ((q % w = p % w + 1 ∧ q / w = p / w ∧ q = p + 1) ∨
     (p % w = q % w + 1 ∧ q / w = p / w ∧ q + 1 = p) ∨
     (q / w = p / w + 1 ∧ q % w = p % w ∧ q = p + w) ∨
     (p / w = q / w + 1 ∧ q % w = p % w ∧ q + w = p)) := by
  rw [adjb_iff] at hadj
  obtain ⟨hp, hq, hcases⟩ := hadj
  refine ⟨hq, ?_⟩
  have hdp := Nat.div_add_mod p w
  have hdq := Nat.div_add_mod q w
  rcases hcases with ⟨hrow, hcol⟩ | ⟨hcolm, hrows⟩
  · have hmul : w * (q / w) = w * (p / w) := by rw [hrow]
    rcases hcol with h1 | h1
    · exact Or.inl ⟨h1, hrow.symm, by omega⟩
    · exact Or.inr (Or.inl ⟨h1, hrow.symm, by omega⟩)
  · rcases hrows with h1 | h1
    · refine Or.inr (Or.inr (Or.inl ⟨h1, hcolm.symm, ?_⟩))
      have hmul : w * (q / w) = w * (p / w) + w := by rw [h1]; ring
      omega
    · refine Or.inr (Or.inr (Or.inr ⟨h1, hcolm.symm, ?_⟩))
      have hmul : w * (p / w) = w * (q / w) + w := by rw [h1]; ring
      omega

theorem coords_lt (w h x y : Nat) (hx : x < w) (hy : y < h) : y * w + x < w * h := by
  have e1 : (y + 1) * w = y * w + w := by ring
  have h2 : (y + 1) * w ≤ h * w := Nat.mul_le_mul_right w hy
  have e2 : h * w = w * h := Nat.mul_comm h w
  omega

theorem coords_mod (w x y : Nat) (hx : x < w) : (y * w + x) % w = x := by
  rw [Nat.mul_comm y w, Nat.mul_add_mod]
  exact Nat.mod_eq_of_lt hx

theorem coords_div (w x y : Nat) (hx : x < w) : (y * w + x) / w = y := by
  rw [Nat.mul_comm y w, Nat.mul_add_div (by omega : 0 < w), Nat.div_eq_of_lt hx]
  omega

theorem adjb_of_coords (w h x y nx ny : Nat) (hx : x < w) (hy : y < h)
    (hnx : nx < w) (hny : ny < h)
    (hd : (nx = x + 1 ∧ ny = y) ∨ (x = nx + 1 ∧ ny = y) ∨
      (nx = x ∧ ny = y + 1) ∨ (nx = x ∧ y = ny + 1)) :
    adjb w h (y * w + x) (ny * w + nx) = true := by
  rw [adjb_iff]
  refine ⟨coords_lt w h x y hx hy, coords_lt w h nx ny hnx hny, ?_⟩
  rw [coords_mod w x y hx, coords_div w x y hx, coords_mod w nx ny hnx, coords_div w nx ny hnx]
  rcases hd with ⟨e1, e2⟩ | ⟨e1, e2⟩ | ⟨e1, e2⟩ | ⟨e1, e2⟩
  · exact Or.inl ⟨by omega, Or.inl (by omega)⟩
  · exact Or.inl ⟨by omega, Or.inr (by omega)⟩
  · exact Or.inr ⟨by omega, Or.inl (by omega)⟩
  · exact Or.inr ⟨by omega, Or.inr (by omega)⟩

theorem reach_ind (w h : Nat) (alpha : Nat → Nat) (s : Nat) (P : Nat → Prop)
    (hbase : P s)
    (hstep : ∀ p q, ReachFG w h alpha s p → P p → stepFG w h alpha p q → P q) :
    ∀ i, ReachFG w h alpha s i → P i := by
  intro i hr
  induction hr with
  | refl => exact hbase
  | tail hr2 hstep2 ih => exact hstep _ _ hr2 ih hstep2

theorem reach_fg (w h : Nat) (alpha : Nat → Nat) (s : Nat) (hs : alpha s ≠ 0) :
    ∀ i, ReachFG w h alpha s i → alpha i ≠ 0 :=
  reach_ind w h alpha s (fun i => alpha i ≠ 0) hs (fun _ _ _ _ hsq => hsq.2)

theorem adjb_symm (w h p q : Nat) (hpq : adjb w h p q = true) : adjb w h q p = true := by
  rw [adjb_iff] at hpq ⊢
  obtain ⟨h1, h2, h3⟩ := hpq
  exact ⟨h2, h1, by omega⟩

theorem reach_symm (w h : Nat) (alpha : Nat → Nat) (s : Nat) (hs : alpha s ≠ 0) :
    ∀ i, ReachFG w h alpha s i → ReachFG w h alpha i s := by
  refine reach_ind w h alpha s _ Relation.ReflTransGen.refl ?_
  intro p q hrp hip hsq
  exact Relation.ReflTransGen.head
    ⟨adjb_symm w h p q hsq.1, reach_fg w h alpha s hs p hrp⟩ hip

theorem blob_eq (w h : Nat) (alpha : Nat → Nat) (s m : Nat) (hs : alpha s ≠ 0)
    (hm : ReachFG w h alpha s m) (j : Nat) :
    ReachFG w h alpha m j ↔ ReachFG w h alpha s j :=
  ⟨fun hj => Relation.ReflTransGen.trans hm hj,
   fun hj => Relation.ReflTransGen.trans (reach_symm w h alpha s hs m hm) hj⟩

theorem blobs_disjoint (w h : Nat) (alpha : Nat → Nat) (s1 s2 : Nat)
    (h2 : alpha s2 ≠ 0) (hsep : ¬ ReachFG w h alpha s1 s2) :
    ∀ i, ReachFG w h alpha s1 i → ReachFG w h alpha s2 i → False := by
  intro i hi1 hi2
  exact hsep (Relation.ReflTransGen.trans hi1 (reach_symm w h alpha s2 h2 i hi2))

theorem getDB_set_true_mono (l : List Bool) (i j : Nat) (h : l.getD j true = true) :
    (l.set i true).getD j true = true := by
  rcases Nat.lt_or_ge j l.length with hj | hj
  · by_cases hij : i = j
    · subst hij
      exact getDB_set_of_eq l i true hj
    · rw [getDB_set_of_ne l i j true hij]
      exact h
  · exact getDB_of_ge _ j (by rw [List.length_set]; exact hj)

theorem getDB_set_true_cases (l : List Bool) (i j : Nat)
    (h : (l.set i true).getD j true = true) : j = i ∨ l.getD j true = true := by
  by_cases hij : j = i
  · exact Or.inl hij
  · rw [getDB_set_of_ne l i j true (fun he => hij he.symm)] at h
    exact Or.inr h

theorem bool_false_of_not_true (b : Bool) (h : ¬ b = true) : b = false := by
  cases b
  · rfl
  · exact absurd rfl h

/-- The invariant of the DFS relative to the seed `s` and the visited
array `v0` from before the seed was marked: stack entries lie in `s`'s
component and are marked; marks only grow; every mark is an old mark, a
component pixel, or a transparent pixel; and the running bounding box is
exactly the extent of the marked component pixels. -/
structure MInv (w h : Nat) (alpha : Nat → Nat) (s : Nat) (v0 : List Bool)
    (st : FloodSt) : Prop where
  len : st.visited.length = v0.length
  mono0 : ∀ i, v0.getD i true = true → st.visited.getD i true = true
  seedV : st.visited.getD s true = true
  stackC : ∀ q ∈ st.stack, ReachFG w h alpha s q
  stackV : ∀ q ∈ st.stack, st.visited.getD q true = true
  upper : ∀ i, st.visited.getD i true = true →
    v0.getD i true = true ∨ ReachFG w h alpha s i ∨ alpha i = 0
  bboxLe : ∀ i, ReachFG w h alpha s i → st.visited.getD i true = true →
    st.minx ≤ i % w ∧ i % w ≤ st.maxx ∧ st.miny ≤ i / w ∧ i / w ≤ st.maxy
  wminx : ∃ i, ReachFG w h alpha s i ∧ st.visited.getD i true = true ∧ i % w = st.minx
  wmaxx : ∃ i, ReachFG w h alpha s i ∧ st.visited.getD i true = true ∧ i % w = st.maxx
  wminy : ∃ i, ReachFG w h alpha s i ∧ st.visited.getD i true = true ∧ i / w = st.miny
  wmaxy : ∃ i, ReachFG w h alpha s i ∧ st.visited.getD i true = true ∧ i / w = st.maxy

/-- Every marked component pixel is either still on the stack or has all
its foreground neighbours marked. -/
def Frontier (w h : Nat) (alpha : Nat → Nat) (s : Nat) (st : FloodSt) : Prop :=
  ∀ p, ReachFG w h alpha s p → st.visited.getD p true = true →
    p ∈ st.stack ∨ ∀ q, stepFG w h alpha p q → st.visited.getD q true = true

theorem probe_mono (alpha : Nat → Nat) (nxn nyn w : Nat) (st : FloodSt) :
    ∀ i, st.visited.getD i true = true →
      (probe alpha nxn nyn w st).visited.getD i true = true := by
  intro i hi
  unfold probe
  dsimp only
  split
  · exact hi
  · split
    · exact getDB_set_true_mono _ _ _ hi
    · exact getDB_set_true_mono _ _ _ hi

theorem probe_stack_mono (alpha : Nat → Nat) (nxn nyn w : Nat) (st : FloodSt) :
    ∀ q, q ∈ st.stack → q ∈ (probe alpha nxn nyn w st).stack := by
  intro q hq
  unfold probe
  dsimp only
  split
  · exact hq
  · split
    · exact hq
    · exact List.mem_cons_of_mem _ hq

theorem probe_stack_cases (alpha : Nat → Nat) (nxn nyn w : Nat) (st : FloodSt) :
    ∀ q, q ∈ (probe alpha nxn nyn w st).stack →
      q ∈ st.stack ∨ q = nyn * w + nxn := by
  intro q hq
  unfold probe at hq
  dsimp only at hq
  split at hq
  · exact Or.inl hq
  · split at hq
    · exact Or.inl hq
    · rcases List.mem_cons.mp hq with hh | hh
      · exact Or.inr hh
      · exact Or.inl hh

theorem probe_target_visited (alpha : Nat → Nat) (nxn nyn w : Nat) (st : FloodSt) :
    (probe alpha nxn nyn w st).visited.getD (nyn * w + nxn) true = true := by
  unfold probe
  dsimp only
  by_cases hv : st.visited.getD (nyn * w + nxn) true = true
  · rw [if_pos hv]
    exact hv
  · rw [if_neg hv]
    have hlt := getDB_lt_of_false _ _ (bool_false_of_not_true _ hv)
    split
    · exact getDB_set_of_eq _ _ _ hlt
    · exact getDB_set_of_eq _ _ _ hlt

theorem probe_newstack (alpha : Nat → Nat) (nxn nyn w : Nat) (st : FloodSt) :
    ∀ i, (probe alpha nxn nyn w st).visited.getD i true = true →
      st.visited.getD i true = false → alpha i ≠ 0 →
      i ∈ (probe alpha nxn nyn w st).stack := by
  intro i hnew hold hfg
  unfold probe at hnew ⊢
  dsimp only at hnew ⊢
  by_cases hv : st.visited.getD (nyn * w + nxn) true = true
  · rw [if_pos hv] at hnew ⊢
    rw [hnew] at hold
    exact absurd hold (by simp)
  · rw [if_neg hv] at hnew ⊢
    by_cases hz : alpha (nyn * w + nxn) = 0
    · rw [if_pos hz] at hnew ⊢
      rcases getDB_set_true_cases _ _ _ hnew with hcase | hcase
      · subst hcase
        exact absurd hz hfg
      · rw [hcase] at hold
        exact absurd hold (by simp)
    · rw [if_neg hz] at hnew ⊢
      rcases getDB_set_true_cases _ _ _ hnew with hcase | hcase
      · subst hcase
        exact List.mem_cons_self _ _
      · rw [hcase] at hold
        exact absurd hold (by simp)

theorem probe_fuel (alpha : Nat → Nat) (nxn nyn w : Nat) (st : FloodSt) :
    floodFuel (probe alpha nxn nyn w st) ≤ floodFuel st := by
  unfold probe floodFuel
  dsimp only
  by_cases hv : st.visited.getD (nyn * w + nxn) true = true
  · rw [if_pos hv]
  · rw [if_neg hv]
    have hcnt := count_false_set_true st.visited _ (bool_false_of_not_true _ hv)
    split
    · dsimp only
      omega
    · dsimp only [List.length_cons]
      omega

theorem probe_minv (w h : Nat) (alpha : Nat → Nat) (s : Nat) (v0 : List Bool)
    (st : FloodSt) (pp nxn nyn : Nat)
    (hs : alpha s ≠ 0)
    (hM : MInv w h alpha s v0 st)
    (hpp : ReachFG w h alpha s pp)
    (hadj : adjb w h pp (nyn * w + nxn) = true)
    (hnx : nxn < w) (hny : nyn < h) :
    MInv w h alpha s v0 (probe alpha nxn nyn w st) := by
  have hw : 0 < w := by omega
  unfold probe
  dsimp only
  by_cases hv : st.visited.getD (nyn * w + nxn) true = true
  · rw [if_pos hv]
    exact hM
  · rw [if_neg hv]
    have hvf : st.visited.getD (nyn * w + nxn) true = false := bool_false_of_not_true _ hv
    have hlt := getDB_lt_of_false _ _ hvf
    by_cases hz : alpha (nyn * w + nxn) = 0
    · rw [if_pos hz]
      refine ⟨?_, ?_, ?_, ?_, ?_, ?_, ?_, ?_, ?_, ?_, ?_⟩
      · rw [List.length_set]
        exact hM.len
      · exact fun i hi => getDB_set_true_mono _ _ _ (hM.mono0 i hi)
      · exact getDB_set_true_mono _ _ _ hM.seedV
      · exact hM.stackC
      · exact fun q hq => getDB_set_true_mono _ _ _ (hM.stackV q hq)
      · intro i hi
        rcases getDB_set_true_cases _ _ _ hi with hcase | hcase
        · subst hcase
          exact Or.inr (Or.inr hz)
        · exact hM.upper i hcase
      · intro i hri hi
        rcases getDB_set_true_cases _ _ _ hi with hcase | hcase
        · subst hcase
          exact absurd hz (reach_fg w h alpha s hs _ hri)
        · exact hM.bboxLe i hri hcase
      · obtain ⟨i, hri, hvi, he⟩ := hM.wminx
        exact ⟨i, hri, getDB_set_true_mono _ _ _ hvi, he⟩
      · obtain ⟨i, hri, hvi, he⟩ := hM.wmaxx
        exact ⟨i, hri, getDB_set_true_mono _ _ _ hvi, he⟩
      · obtain ⟨i, hri, hvi, he⟩ := hM.wminy
        exact ⟨i, hri, getDB_set_true_mono _ _ _ hvi, he⟩
      · obtain ⟨i, hri, hvi, he⟩ := hM.wmaxy
        exact ⟨i, hri, getDB_set_true_mono _ _ _ hvi, he⟩
    · rw [if_neg hz]
      have hreach : ReachFG w h alpha s (nyn * w + nxn) :=
        Relation.ReflTransGen.tail hpp ⟨hadj, hz⟩
      have hmod : (nyn * w + nxn) % w = nxn := coords_mod w nxn nyn hnx
      have hdiv : (nyn * w + nxn) / w = nyn := coords_div w nxn nyn hnx
      refine ⟨?_, ?_, ?_, ?_, ?_, ?_, ?_, ?_, ?_, ?_, ?_⟩
      · rw [List.length_set]
        exact hM.len
      · exact fun i hi => getDB_set_true_mono _ _ _ (hM.mono0 i hi)
      · exact getDB_set_true_mono _ _ _ hM.seedV
      · intro q hq
        rcases List.mem_cons.mp hq with hh | hh
        · subst hh
          exact hreach
        · exact hM.stackC q hh
      · intro q hq
        rcases List.mem_cons.mp hq with hh | hh
        · subst hh
          exact getDB_set_of_eq _ _ _ hlt
        · exact getDB_set_true_mono _ _ _ (hM.stackV q hh)
      · intro i hi
        rcases getDB_set_true_cases _ _ _ hi with hcase | hcase
        · subst hcase
          exact Or.inr (Or.inl hreach)
        · exact hM.upper i hcase
      · intro i hri hi
        dsimp only
        rcases getDB_set_true_cases _ _ _ hi with hcase | hcase
        · subst hcase
          rw [hmod, hdiv]
          constructor
          · split <;> omega
          constructor
          · split <;> omega
          constructor
          · split <;> omega
          · split <;> omega
        · have hb := hM.bboxLe i hri hcase
          constructor
          · split <;> omega
          constructor
          · split <;> omega
          constructor
          · split <;> omega
          · split <;> omega
      · dsimp only
        by_cases hc : nxn < st.minx
        · rw [if_pos hc]
          exact ⟨nyn * w + nxn, hreach, getDB_set_of_eq _ _ _ hlt, hmod⟩
        · rw [if_neg hc]
          obtain ⟨i, hri, hvi, he⟩ := hM.wminx
          exact ⟨i, hri, getDB_set_true_mono _ _ _ hvi, he⟩
      · dsimp only
        by_cases hc : st.maxx < nxn
        · rw [if_pos hc]
          exact ⟨nyn * w + nxn, hreach, getDB_set_of_eq _ _ _ hlt, hmod⟩
        · rw [if_neg hc]
          obtain ⟨i, hri, hvi, he⟩ := hM.wmaxx
          exact ⟨i, hri, getDB_set_true_mono _ _ _ hvi, he⟩
      · dsimp only
        by_cases hc : nyn < st.miny
        · rw [if_pos hc]
          exact ⟨nyn * w + nxn, hreach, getDB_set_of_eq _ _ _ hlt, hdiv⟩
        · rw [if_neg hc]
          obtain ⟨i, hri, hvi, he⟩ := hM.wminy
          exact ⟨i, hri, getDB_set_true_mono _ _ _ hvi, he⟩
      · dsimp only
        by_cases hc : st.maxy < nyn
        · rw [if_pos hc]
          exact ⟨nyn * w + nxn, hreach, getDB_set_of_eq _ _ _ hlt, hdiv⟩
        · rw [if_neg hc]
          obtain ⟨i, hri, hvi, he⟩ := hM.wmaxy
          exact ⟨i, hri, getDB_set_true_mono _ _ _ hvi, he⟩

theorem neighStep_right (w h : Nat) (alpha : Nat → Nat) (x y : Nat) (st : FloodSt)
    (hy : y < h) :
    neighStep w h alpha ((x : Int) + 1) (y : Int) st =
      if x + 1 < w then probe alpha (x + 1) y w st else st := by
  unfold neighStep
  by_cases hc : x + 1 < w
  · rw [if_pos (by omega)]
    have e1 : ((x : Int) + 1).toNat = x + 1 := by omega
    have e2 : ((y : Int)).toNat = y := by omega
    rw [e1, e2, if_pos hc]
  · rw [if_neg (by omega), if_neg hc]

theorem neighStep_left (w h : Nat) (alpha : Nat → Nat) (x y : Nat) (st : FloodSt)
    (hx : x < w) (hy : y < h) :
    neighStep w h alpha ((x : Int) - 1) (y : Int) st =
      if x = 0 then st else probe alpha (x - 1) y w st := by
  unfold neighStep
  by_cases hc : x = 0
  · rw [if_neg (by omega), if_pos hc]
  · rw [if_pos (by omega)]
    have e1 : ((x : Int) - 1).toNat = x - 1 := by omega
    have e2 : ((y : Int)).toNat = y := by omega
    rw [e1, e2, if_neg hc]

theorem neighStep_down (w h : Nat) (alpha : Nat → Nat) (x y : Nat) (st : FloodSt)
    (hx : x < w) :
    neighStep w h alpha (x : Int) ((y : Int) + 1) st =
      if y + 1 < h then probe alpha x (y + 1) w st else st := by
  unfold neighStep
  by_cases hc : y + 1 < h
  · rw [if_pos (by omega)]
    have e1 : ((x : Int)).toNat = x := by omega
    have e2 : ((y : Int) + 1).toNat = y + 1 := by omega
    rw [e1, e2, if_pos hc]
  · rw [if_neg (by omega), if_neg hc]

theorem neighStep_up (w h : Nat) (alpha : Nat → Nat) (x y : Nat) (st : FloodSt)
    (hx : x < w) (hy : y < h) :
    neighStep w h alpha (x : Int) ((y : Int) - 1) st =
      if y = 0 then st else probe alpha x (y - 1) w st := by
  unfold neighStep
  by_cases hc : y = 0
  · rw [if_neg (by omega), if_pos hc]
  · rw [if_pos (by omega)]
    have e1 : ((x : Int)).toNat = x := by omega
    have e2 : ((y : Int) - 1).toNat = y - 1 := by omega
    rw [e1, e2, if_neg hc]

theorem orProbe_mono (alpha : Nat → Nat) (a b w : Nat) (st st' : FloodSt)
    (h : st' = st ∨ st' = probe alpha a b w st) :
    ∀ i, st.visited.getD i true = true → st'.visited.getD i true = true := by
  rcases h with h | h <;> subst h
  · exact fun i hi => hi
  · exact probe_mono alpha a b w st

theorem orProbe_stack_mono (alpha : Nat → Nat) (a b w : Nat) (st st' : FloodSt)
    (h : st' = st ∨ st' = probe alpha a b w st) :
    ∀ q, q ∈ st.stack → q ∈ st'.stack := by
  rcases h with h | h <;> subst h
  · exact fun q hq => hq
  · exact probe_stack_mono alpha a b w st

theorem orProbe_newstack (alpha : Nat → Nat) (a b w : Nat) (st st' : FloodSt)
    (h : st' = st ∨ st' = probe alpha a b w st) :
    ∀ i, st'.visited.getD i true = true → st.visited.getD i true = false →
      alpha i ≠ 0 → i ∈ st'.stack := by
  rcases h with h | h <;> subst h
  · intro i hi hif _
    rw [hi] at hif
    exact absurd hif (by simp)
  · exact probe_newstack alpha a b w st

theorem orProbe_fuel (alpha : Nat → Nat) (a b w : Nat) (st st' : FloodSt)
    (h : st' = st ∨ st' = probe alpha a b w st) :
    floodFuel st' ≤ floodFuel st := by
  rcases h with h | h <;> subst h
  · exact Nat.le_refl _
  · exact probe_fuel alpha a b w st

theorem floodIter_minv (w h : Nat) (alpha : Nat → Nat) (s : Nat) (v0 : List Bool)
    (hs : alpha s ≠ 0) (p : Nat) (st1 : FloodSt)
    (hM : MInv w h alpha s v0 st1)
    (hp : ReachFG w h alpha s p)
    (hpw : p < w * h) :
    MInv w h alpha s v0 (floodIter w h alpha p st1) ∧
    (∀ i, st1.visited.getD i true = true →
      (floodIter w h alpha p st1).visited.getD i true = true) ∧
    (∀ q, q ∈ st1.stack → q ∈ (floodIter w h alpha p st1).stack) ∧
    (∀ q, stepFG w h alpha p q →
      (floodIter w h alpha p st1).visited.getD q true = true) ∧
    (∀ i, (floodIter w h alpha p st1).visited.getD i true = true →
      st1.visited.getD i true = false → alpha i ≠ 0 →
      i ∈ (floodIter w h alpha p st1).stack) ∧
    floodFuel (floodIter w h alpha p st1) ≤ floodFuel st1 := by
  have hw : 0 < w := by
    by_contra h0
    have hw0 : w = 0 := by omega
    subst hw0
    simp at hpw
  have hxw : p % w < w := Nat.mod_lt p hw
  have hyh : p / w < h := (Nat.div_lt_iff_lt_mul hw).mpr (by rw [Nat.mul_comm]; exact hpw)
  have hpeq : (p / w) * w + (p % w) = p := by
    rw [Nat.mul_comm]
    exact Nat.div_add_mod p w
  unfold floodIter
  dsimp only
  rw [neighStep_right w h alpha (p % w) (p / w) st1 hyh]
  rw [neighStep_left w h alpha (p % w) (p / w) _ hxw hyh]
  rw [neighStep_down w h alpha (p % w) (p / w) _ hxw]
  rw [neighStep_up w h alpha (p % w) (p / w) _ hxw hyh]
  set st2 := if p % w + 1 < w then probe alpha (p % w + 1) (p / w) w st1 else st1 with hst2
  set st3 := if p % w = 0 then st2 else probe alpha (p % w - 1) (p / w) w st2 with hst3
  set st4 := if p / w + 1 < h then probe alpha (p % w) (p / w + 1) w st3 else st3 with hst4
  set st5 := if p / w = 0 then st4 else probe alpha (p % w) (p / w - 1) w st4 with hst5
  have hd2 : st2 = st1 ∨ st2 = probe alpha (p % w + 1) (p / w) w st1 := by
    rw [hst2]
    split
    · exact Or.inr rfl
    · exact Or.inl rfl
  have hd3 : st3 = st2 ∨ st3 = probe alpha (p % w - 1) (p / w) w st2 := by
    rw [hst3]
    split
    · exact Or.inl rfl
    · exact Or.inr rfl
  have hd4 : st4 = st3 ∨ st4 = probe alpha (p % w) (p / w + 1) w st3 := by
    rw [hst4]
    split
    · exact Or.inr rfl
    · exact Or.inl rfl
  have hd5 : st5 = st4 ∨ st5 = probe alpha (p % w) (p / w - 1) w st4 := by
    rw [hst5]
    split
    · exact Or.inl rfl
    · exact Or.inr rfl
  have hM2 : MInv w h alpha s v0 st2 := by
    rw [hst2]
    split
    · rename_i hcond
      refine probe_minv w h alpha s v0 st1 p (p % w + 1) (p / w) hs hM hp ?_ hcond hyh
      have hco := adjb_of_coords w h (p % w) (p / w) (p % w + 1) (p / w) hxw hyh hcond hyh
        (Or.inl ⟨rfl, rfl⟩)
      rwa [hpeq] at hco
    · exact hM
  have hM3 : MInv w h alpha s v0 st3 := by
    rw [hst3]
    split
    · exact hM2
    · rename_i hcond
      refine probe_minv w h alpha s v0 st2 p (p % w - 1) (p / w) hs hM2 hp ?_ (by omega) hyh
      have hco := adjb_of_coords w h (p % w) (p / w) (p % w - 1) (p / w) hxw hyh (by omega) hyh
        (Or.inr (Or.inl ⟨by omega, rfl⟩))
      rwa [hpeq] at hco
  have hM4 : MInv w h alpha s v0 st4 := by
    rw [hst4]
    split
    · rename_i hcond
      refine probe_minv w h alpha s v0 st3 p (p % w) (p / w + 1) hs hM3 hp ?_ hxw hcond
      have hco := adjb_of_coords w h (p % w) (p / w) (p % w) (p / w + 1) hxw hyh hxw hcond
        (Or.inr (Or.inr (Or.inl ⟨rfl, rfl⟩)))
      rwa [hpeq] at hco
    · exact hM3
  have hM5 : MInv w h alpha s v0 st5 := by
    rw [hst5]
    split
    · exact hM4
    · rename_i hcond
      have hsub : p / w - 1 < h := Nat.lt_of_le_of_lt (Nat.sub_le _ _) hyh
      have hsucc : p / w = (p / w - 1) + 1 :=
        (Nat.sub_add_cancel (Nat.pos_of_ne_zero hcond)).symm
      refine probe_minv w h alpha s v0 st4 p (p % w) (p / w - 1) hs hM4 hp ?_ hxw hsub
      have hco := adjb_of_coords w h (p % w) (p / w) (p % w) (p / w - 1) hxw hyh hxw hsub
        (Or.inr (Or.inr (Or.inr ⟨rfl, hsucc⟩)))
      rwa [hpeq] at hco
  have mono2 := orProbe_mono alpha (p % w + 1) (p / w) w st1 st2 hd2
  have mono3 := orProbe_mono alpha (p % w - 1) (p / w) w st2 st3 hd3
  have mono4 := orProbe_mono alpha (p % w) (p / w + 1) w st3 st4 hd4
  have mono5 := orProbe_mono alpha (p % w) (p / w - 1) w st4 st5 hd5
  have smono2 := orProbe_stack_mono alpha (p % w + 1) (p / w) w st1 st2 hd2
  have smono3 := orProbe_stack_mono alpha (p % w - 1) (p / w) w st2 st3 hd3
  have smono4 := orProbe_stack_mono alpha (p % w) (p / w + 1) w st3 st4 hd4
  have smono5 := orProbe_stack_mono alpha (p % w) (p / w - 1) w st4 st5 hd5
  have new2 := orProbe_newstack alpha (p % w + 1) (p / w) w st1 st2 hd2
  have new3 := orProbe_newstack alpha (p % w - 1) (p / w) w st2 st3 hd3
  have new4 := orProbe_newstack alpha (p % w) (p / w + 1) w st3 st4 hd4
  have new5 := orProbe_newstack alpha (p % w) (p / w - 1) w st4 st5 hd5
  have fuel2 := orProbe_fuel alpha (p % w + 1) (p / w) w st1 st2 hd2
  have fuel3 := orProbe_fuel alpha (p % w - 1) (p / w) w st2 st3 hd3
  have fuel4 := orProbe_fuel alpha (p % w) (p / w + 1) w st3 st4 hd4
  have fuel5 := orProbe_fuel alpha (p % w) (p / w - 1) w st4 st5 hd5
  refine ⟨hM5, ?_, ?_, ?_, ?_, ?_⟩
  · exact fun i hi => mono5 i (mono4 i (mono3 i (mono2 i hi)))
  · exact fun q hq => smono5 q (smono4 q (smono3 q (smono2 q hq)))
  · intro q hq
    obtain ⟨hqw, hcases⟩ := adj_enum w h p q hq.1
    have hdq := Nat.div_add_mod q w
    have hmm : (q / w) * w = w * (q / w) := Nat.mul_comm _ _
    rcases hcases with ⟨e1, e2, e3⟩ | ⟨e1, e2, e3⟩ | ⟨e1, e2, e3⟩ | ⟨e1, e2, e3⟩
    · have hcond : p % w + 1 < w := by
        have hb : q % w < w := Nat.mod_lt q hw
        omega
      have hqe : (p / w) * w + (p % w + 1) = q := by
        rw [e2] at hdq
        omega
      have hv2 : st2.visited.getD q true = true := by
        rw [hst2, if_pos hcond, ← hqe]
        exact probe_target_visited alpha (p % w + 1) (p / w) w st1
      exact mono5 q (mono4 q (mono3 q hv2))
    · have hcond : ¬ p % w = 0 := by omega
      have hqe : (p / w) * w + (p % w - 1) = q := by
        rw [e2] at hdq
        omega
      have hv3 : st3.visited.getD q true = true := by
        rw [hst3, if_neg hcond, ← hqe]
        exact probe_target_visited alpha (p % w - 1) (p / w) w st2
      exact mono5 q (mono4 q hv3)
    · have hcond : p / w + 1 < h := by
        have hb : q / w < h := (Nat.div_lt_iff_lt_mul hw).mpr (by rw [Nat.mul_comm]; exact hqw)
        omega
      have hqe : (p / w + 1) * w + (p % w) = q := by
        rw [e1] at hdq
        have he : (p / w + 1) * w = w * (p / w + 1) := Nat.mul_comm _ _
        omega
      have hv4 : st4.visited.getD q true = true := by
        rw [hst4, if_pos hcond, ← hqe]
        exact probe_target_visited alpha (p % w) (p / w + 1) w st3
      exact mono5 q hv4
    · have hcond : ¬ p / w = 0 := by rw [e1]; simp
      have hqe : (p / w - 1) * w + (p % w) = q := by
        have he2 : q / w = p / w - 1 := by rw [e1, Nat.add_sub_cancel]
        rw [he2] at hdq
        have he : (p / w - 1) * w = w * (p / w - 1) := Nat.mul_comm _ _
        omega
      have hv5 : st5.visited.getD q true = true := by
        rw [hst5, if_neg hcond, ← hqe]
        exact probe_target_visited alpha (p % w) (p / w - 1) w st4
      exact hv5
  · intro i h5 h1f hfg
    by_cases h2 : st2.visited.getD i true = true
    · exact smono5 i (smono4 i (smono3 i (new2 i h2 h1f hfg)))
    · by_cases h3 : st3.visited.getD i true = true
      · exact smono5 i (smono4 i (new3 i h3 (bool_false_of_not_true _ h2) hfg))
      · by_cases h4 : st4.visited.getD i true = true
        · exact smono5 i (new4 i h4 (bool_false_of_not_true _ h3) hfg)
        · exact new5 i h5 (bool_false_of_not_true _ h4) hfg
  · exact le_trans fuel5 (le_trans fuel4 (le_trans fuel3 fuel2))

theorem floodGo_spec (w h : Nat) (alpha : Nat → Nat) (s : Nat) (v0 : List Bool)
    (hs : alpha s ≠ 0)
    (hbound : ∀ i, alpha i ≠ 0 → i < w * h) :
    ∀ fuel st, floodFuel st ≤ fuel →
      MInv w h alpha s v0 st → Frontier w h alpha s st →
      (floodGo w h alpha fuel st).stack = [] ∧
      MInv w h alpha s v0 (floodGo w h alpha fuel st) ∧
      Frontier w h alpha s (floodGo w h alpha fuel st)
  | 0, st, hf, hM, hF => by
      have hstack : st.stack = [] := List.length_eq_zero.mp (by unfold floodFuel at hf; omega)
      exact ⟨hstack, hM, hF⟩
  | fuel + 1, st, hf, hM, hF => by
      cases hstk : st.stack with
      | nil =>
          have heq : floodGo w h alpha (fuel + 1) st = st := by
            conv_lhs => rw [floodGo]
            rw [hstk]
          rw [heq]
          exact ⟨hstk, hM, hF⟩
      | cons p rest =>
          have hp : ReachFG w h alpha s p :=
            hM.stackC p (by rw [hstk]; exact List.mem_cons_self _ _)
          have hpw : p < w * h := hbound p (reach_fg w h alpha s hs p hp)
          have hM1 : MInv w h alpha s v0 { st with stack := rest } := by
            refine ⟨hM.len, hM.mono0, hM.seedV, ?_, ?_, hM.upper, hM.bboxLe,
              hM.wminx, hM.wmaxx, hM.wminy, hM.wmaxy⟩
            · exact fun q hq => hM.stackC q (by rw [hstk]; exact List.mem_cons_of_mem _ hq)
            · exact fun q hq => hM.stackV q (by rw [hstk]; exact List.mem_cons_of_mem _ hq)
          have hIter := floodIter_minv w h alpha s v0 hs p { st with stack := rest } hM1 hp hpw
          have hF5 : Frontier w h alpha s (floodIter w h alpha p { st with stack := rest }) := by
            intro p' hrp' hvp'
            by_cases hold : st.visited.getD p' true = true
            · rcases hF p' hrp' hold with hin | hexp
              · rw [hstk] at hin
                rcases List.mem_cons.mp hin with he | he
                · subst he
                  exact Or.inr hIter.2.2.2.1
                · exact Or.inl (hIter.2.2.1 p' he)
              · exact Or.inr (fun q hq => hIter.2.1 q (hexp q hq))
            · have hfg : alpha p' ≠ 0 := reach_fg w h alpha s hs p' hrp'
              exact Or.inl (hIter.2.2.2.2.1 p' hvp' (bool_false_of_not_true _ hold) hfg)
          have hfuel5 : floodFuel (floodIter w h alpha p { st with stack := rest }) ≤ fuel := by
            have h1 : floodFuel { st with stack := rest } + 1 = floodFuel st := by
              unfold floodFuel
              rw [hstk]
              dsimp only [List.length_cons]
              omega
            have h2 := hIter.2.2.2.2.2
            omega
          have heq : floodGo w h alpha (fuel + 1) st =
              floodGo w h alpha fuel (floodIter w h alpha p { st with stack := rest }) := by
            conv_lhs => rw [floodGo]
            rw [hstk]
          rw [heq]
          exact floodGo_spec w h alpha s v0 hs hbound fuel _ hfuel5 hIter.1 hF5

theorem flood_spec (w h : Nat) (alpha : Nat → Nat)
    (hbound : ∀ i, alpha i ≠ 0 → i < w * h)
    (s : Nat) (hs : alpha s ≠ 0) (v0 : List Bool)
    (hlen : v0.length = w * h)
    (hdisj : ∀ i, ReachFG w h alpha s i → v0.getD i true = false) :
    (flood w h alpha ⟨v0.set s true, [s], s % w, s % w, s / w, s / w⟩).visited.length = w * h ∧
    (∀ i, v0.getD i true = true →
      (flood w h alpha ⟨v0.set s true, [s], s % w, s % w, s / w, s / w⟩).visited.getD i true = true) ∧
    (∀ i, ReachFG w h alpha s i →
      (flood w h alpha ⟨v0.set s true, [s], s % w, s % w, s / w, s / w⟩).visited.getD i true = true) ∧
    (∀ i, (flood w h alpha ⟨v0.set s true, [s], s % w, s % w, s / w, s / w⟩).visited.getD i true = true →
      v0.getD i true = true ∨ ReachFG w h alpha s i ∨ alpha i = 0) ∧
    (∀ i, ReachFG w h alpha s i →
      (flood w h alpha ⟨v0.set s true, [s], s % w, s % w, s / w, s / w⟩).minx ≤ i % w ∧
      i % w ≤ (flood w h alpha ⟨v0.set s true, [s], s % w, s % w, s / w, s / w⟩).maxx ∧
      (flood w h alpha ⟨v0.set s true, [s], s % w, s % w, s / w, s / w⟩).miny ≤ i / w ∧
      i / w ≤ (flood w h alpha ⟨v0.set s true, [s], s % w, s % w, s / w, s / w⟩).maxy) ∧
    (∃ i, ReachFG w h alpha s i ∧
      i % w = (flood w h alpha ⟨v0.set s true, [s], s % w, s % w, s / w, s / w⟩).minx) ∧
    (∃ i, ReachFG w h alpha s i ∧
      i % w = (flood w h alpha ⟨v0.set s true, [s], s % w, s % w, s / w, s / w⟩).maxx) ∧
    (∃ i, ReachFG w h alpha s i ∧
      i / w = (flood w h alpha ⟨v0.set s true, [s], s % w, s % w, s / w, s / w⟩).miny) ∧
    (∃ i, ReachFG w h alpha s i ∧
      i / w = (flood w h alpha ⟨v0.set s true, [s], s % w, s % w, s / w, s / w⟩).maxy) := by
  have hsw : s < w * h := hbound s hs
  have hslen : s < v0.length := by rw [hlen]; exact hsw
  have hM0 : MInv w h alpha s v0 ⟨v0.set s true, [s], s % w, s % w, s / w, s / w⟩ := by
    refine ⟨?_, ?_, ?_, ?_, ?_, ?_, ?_, ?_, ?_, ?_, ?_⟩
    · exact List.length_set v0 s true
    · exact fun i hi => getDB_set_true_mono _ _ _ hi
    · exact getDB_set_of_eq _ _ _ hslen
    · intro q hq
      rcases List.mem_cons.mp hq with he | he
      · subst he
        exact Relation.ReflTransGen.refl
      · exact absurd he (List.not_mem_nil q)
    · intro q hq
      rcases List.mem_cons.mp hq with he | he
      · subst he
        exact getDB_set_of_eq _ _ _ hslen
      · exact absurd he (List.not_mem_nil q)
    · intro i hi
      rcases getDB_set_true_cases _ _ _ hi with hcase | hcase
      · subst hcase
        exact Or.inr (Or.inl Relation.ReflTransGen.refl)
      · exact Or.inl hcase
    · intro i hri hi
      dsimp only
      rcases getDB_set_true_cases _ _ _ hi with hcase | hcase
      · subst hcase
        exact ⟨Nat.le_refl _, Nat.le_refl _, Nat.le_refl _, Nat.le_refl _⟩
      · rw [hdisj i hri] at hcase
        exact absurd hcase (by simp)
    · exact ⟨s, Relation.ReflTransGen.refl, getDB_set_of_eq _ _ _ hslen, rfl⟩
    · exact ⟨s, Relation.ReflTransGen.refl, getDB_set_of_eq _ _ _ hslen, rfl⟩
    · exact ⟨s, Relation.ReflTransGen.refl, getDB_set_of_eq _ _ _ hslen, rfl⟩
    · exact ⟨s, Relation.ReflTransGen.refl, getDB_set_of_eq _ _ _ hslen, rfl⟩
  have hF0 : Frontier w h alpha s ⟨v0.set s true, [s], s % w, s % w, s / w, s / w⟩ := by
    intro p' hrp' hvp'
    rcases getDB_set_true_cases _ _ _ hvp' with hcase | hcase
    · subst hcase
      exact Or.inl (List.mem_cons_self _ _)
    · rw [hdisj p' hrp'] at hcase
      exact absurd hcase (by simp)
  obtain ⟨hstk, hMf, hFf⟩ := floodGo_spec w h alpha s v0 hs hbound
    (floodFuel ⟨v0.set s true, [s], s % w, s % w, s / w, s / w⟩)
    ⟨v0.set s true, [s], s % w, s % w, s / w, s / w⟩ (Nat.le_refl _) hM0 hF0
  have hcov : ∀ i, ReachFG w h alpha s i →
      (flood w h alpha ⟨v0.set s true, [s], s % w, s % w, s / w, s / w⟩).visited.getD i true = true := by
    refine reach_ind w h alpha s _ hMf.seedV ?_
    intro p q hrp hPp hsq
    rcases hFf p hrp hPp with hin | hexp
    · rw [hstk] at hin
      exact absurd hin (List.not_mem_nil p)
    · exact hexp q hsq
  refine ⟨by have hL := hMf.len; rw [hlen] at hL; exact hL, hMf.mono0, hcov, hMf.upper,
    fun i hri => hMf.bboxLe i hri (hcov i hri), ?_, ?_, ?_, ?_⟩
  · obtain ⟨i, hri, _, he⟩ := hMf.wminx
    exact ⟨i, hri, he⟩
  · obtain ⟨i, hri, _, he⟩ := hMf.wmaxx
    exact ⟨i, hri, he⟩
  · obtain ⟨i, hri, _, he⟩ := hMf.wminy
    exact ⟨i, hri, he⟩
  · obtain ⟨i, hri, _, he⟩ := hMf.wmaxy
    exact ⟨i, hri, he⟩

theorem isBBox_of_flood (w : Nat) (x0 y0 : Int) (B : Nat → Prop)
    (minx maxx miny maxy : Nat)
    (hle : ∀ i, B i → minx ≤ i % w ∧ i % w ≤ maxx ∧ miny ≤ i / w ∧ i / w ≤ maxy)
    (hwx : ∃ i, B i ∧ i % w = minx) (hwX : ∃ i, B i ∧ i % w = maxx)
    (hwy : ∃ i, B i ∧ i / w = miny) (hwY : ∃ i, B i ∧ i / w = maxy) :
    isBBox w x0 y0 B ⟨x0 + (minx : Int), y0 + (miny : Int),
      (maxx : Int) - (minx : Int) + 1, (maxy : Int) - (miny : Int) + 1⟩ := by
  unfold isBBox
  dsimp only
  refine ⟨?_, ?_, ?_, ?_, ?_⟩
  · intro i hB
    obtain ⟨hb1, hb2, hb3, hb4⟩ := hle i hB
    refine ⟨?_, ?_, ?_, ?_⟩ <;> omega
  · obtain ⟨i, hB, he⟩ := hwx
    exact ⟨i, hB, by omega⟩
  · obtain ⟨i, hB, he⟩ := hwX
    exact ⟨i, hB, by omega⟩
  · obtain ⟨i, hB, he⟩ := hwy
    exact ⟨i, hB, by omega⟩
  · obtain ⟨i, hB, he⟩ := hwY
    exact ⟨i, hB, by omega⟩

theorem isBBox_congr (w : Nat) (x0 y0 : Int) (B C : Nat → Prop)
    (hBC : ∀ i, B i ↔ C i) (r : RegionRect)
    (hb : isBBox w x0 y0 B r) : isBBox w x0 y0 C r := by
  obtain ⟨hb1, hb2, hb3, hb4, hb5⟩ := hb
  refine ⟨fun i hC => hb1 i ((hBC i).mpr hC), ?_, ?_, ?_, ?_⟩
  · obtain ⟨i, hB, he⟩ := hb2
    exact ⟨i, (hBC i).mp hB, he⟩
  · obtain ⟨i, hB, he⟩ := hb3
    exact ⟨i, (hBC i).mp hB, he⟩
  · obtain ⟨i, hB, he⟩ := hb4
    exact ⟨i, (hBC i).mp hB, he⟩
  · obtain ⟨i, hB, he⟩ := hb5
    exact ⟨i, (hBC i).mp hB, he⟩

/-- The invariant of the outer component scan on a two-blob mask: either
nothing foreground has been visited and no component emitted yet, or
exactly one blob has been fully traced into one rect, or both have. -/
def PhaseInv (w h : Nat) (alpha : Nat → Nat) (x0 y0 : Int) (s1 s2 : Nat)
    (visited : List Bool) (comps : List RegionRect) : Prop :=
  (comps = [] ∧ ∀ i, i < w * h → visited.getD i true = true → alpha i = 0) ∨
  (∃ r sa sb, (sa = s1 ∧ sb = s2 ∨ sa = s2 ∧ sb = s1) ∧ comps = [r] ∧
    isBBox w x0 y0 (ReachFG w h alpha sa) r ∧
    (∀ i, i < w * h → alpha i ≠ 0 →
      (visited.getD i true = true ↔ ReachFG w h alpha sa i))) ∨
  (∃ r r' sa sb, (sa = s1 ∧ sb = s2 ∨ sa = s2 ∧ sb = s1) ∧ comps = [r, r'] ∧
    isBBox w x0 y0 (ReachFG w h alpha sa) r ∧
    isBBox w x0 y0 (ReachFG w h alpha sb) r' ∧
    (∀ i, i < w * h → alpha i ≠ 0 → visited.getD i true = true))

theorem extractGo_two (w h : Nat) (alpha : Nat → Nat) (x0 y0 : Int)
    (hbound : ∀ i, alpha i ≠ 0 → i < w * h)
    (s1 s2 : Nat) (h1 : alpha s1 ≠ 0) (h2 : alpha s2 ≠ 0)
    (hsep : ¬ ReachFG w h alpha s1 s2)
    (hcover : ∀ i, alpha i ≠ 0 → ReachFG w h alpha s1 i ∨ ReachFG w h alpha s2 i) :
    ∀ n idx visited comps,
      idx + n = w * h →
      visited.length = w * h →
      (∀ i, i < idx → visited.getD i true = true) →
      PhaseInv w h alpha x0 y0 s1 s2 visited comps →
      ∃ r r' sa sb, (sa = s1 ∧ sb = s2 ∨ sa = s2 ∧ sb = s1) ∧
        extractGo w h alpha x0 y0 n idx visited comps = [r, r'] ∧
        isBBox w x0 y0 (ReachFG w h alpha sa) r ∧
        isBBox w x0 y0 (ReachFG w h alpha sb) r'
  | 0, idx, visited, comps, hn, hlen, hpre, hph => by
      rcases hph with ⟨hc, hnofg⟩ | ⟨r, sa, sb, hpair, hcomps, hbb, hiff⟩ |
        ⟨r, r', sa, sb, hpair, hcomps, hbbA, hbbB, hall⟩
      · exfalso
        have hs1w : s1 < w * h := hbound s1 h1
        exact h1 (hnofg s1 hs1w (hpre s1 (by omega)))
      · exfalso
        rcases hpair with ⟨ha, hb⟩ | ⟨ha, hb⟩
        · have hsbw : sb < w * h := hbound sb (by rw [hb]; exact h2)
          have hreach : ReachFG w h alpha sa sb :=
            (hiff sb hsbw (by rw [hb]; exact h2)).mp (hpre sb (by omega))
          rw [ha, hb] at hreach
          exact hsep hreach
        · have hsbw : sb < w * h := hbound sb (by rw [hb]; exact h1)
          have hreach : ReachFG w h alpha sa sb :=
            (hiff sb hsbw (by rw [hb]; exact h1)).mp (hpre sb (by omega))
          rw [ha, hb] at hreach
          exact hsep (reach_symm w h alpha s2 h2 s1 hreach)
      · subst hcomps
        exact ⟨r, r', sa, sb, hpair, rfl, hbbA, hbbB⟩
  | n + 1, idx, visited, comps, hn, hlen, hpre, hph => by
      have hidxlt : idx < w * h := by omega
      by_cases hvis : visited.getD idx true = true
      · have heq : extractGo w h alpha x0 y0 (n + 1) idx visited comps =
            extractGo w h alpha x0 y0 n (idx + 1) visited comps := by
          conv_lhs => rw [extractGo]
          rw [if_pos hvis]
        rw [heq]
        refine extractGo_two w h alpha x0 y0 hbound s1 s2 h1 h2 hsep hcover n (idx + 1)
          visited comps (by omega) hlen ?_ hph
        intro i hi
        rcases Nat.lt_or_ge i idx with hlt | hge
        · exact hpre i hlt
        · have hie : i = idx := by omega
          subst hie
          exact hvis
      · have hvf : visited.getD idx true = false := bool_false_of_not_true _ hvis
        by_cases hz : alpha idx = 0
        · have heq : extractGo w h alpha x0 y0 (n + 1) idx visited comps =
              extractGo w h alpha x0 y0 n (idx + 1) (visited.set idx true) comps := by
            conv_lhs => rw [extractGo]
            rw [if_neg hvis, if_pos hz]
          rw [heq]
          refine extractGo_two w h alpha x0 y0 hbound s1 s2 h1 h2 hsep hcover n (idx + 1)
            (visited.set idx true) comps (by omega)
            (by rw [List.length_set]; exact hlen) ?_ ?_
          · intro i hi
            rcases Nat.lt_or_ge i idx with hlt | hge
            · exact getDB_set_true_mono _ _ _ (hpre i hlt)
            · have hie : i = idx := by omega
              subst hie
              exact getDB_set_of_eq _ _ _ (by rw [hlen]; exact hidxlt)
          · rcases hph with ⟨hc, hnofg⟩ | ⟨r, sa, sb, hpair, hcomps, hbb, hiff⟩ |
              ⟨r, r', sa, sb, hpair, hcomps, hbbA, hbbB, hall⟩
            · refine Or.inl ⟨hc, ?_⟩
              intro i hiw hv
              rcases getDB_set_true_cases _ _ _ hv with hcase | hcase
              · subst hcase
                exact hz
              · exact hnofg i hiw hcase
            · refine Or.inr (Or.inl ⟨r, sa, sb, hpair, hcomps, hbb, ?_⟩)
              intro i hiw hfg
              have hne : ¬ idx = i := fun he => by subst he; exact hfg hz
              rw [getDB_set_of_ne visited idx i true hne]
              exact hiff i hiw hfg
            · refine Or.inr (Or.inr ⟨r, r', sa, sb, hpair, hcomps, hbbA, hbbB, ?_⟩)
              intro i hiw hfg
              exact getDB_set_true_mono _ _ _ (hall i hiw hfg)
        · have hfg : alpha idx ≠ 0 := hz
          rcases hph with ⟨hc, hnofg⟩ | ⟨r, sa, sb, hpair, hcomps, hbb, hiff⟩ |
            ⟨r, r', sa, sb, hpair, hcomps, hbbA, hbbB, hall⟩
          · -- phase A: the seed starts the first blob
            subst hc
            have key : ∀ sa sb : Nat, (sa = s1 ∧ sb = s2 ∨ sa = s2 ∧ sb = s1) →
                alpha sa ≠ 0 → ReachFG w h alpha sa idx →
                ∃ r r' sa2 sb2, (sa2 = s1 ∧ sb2 = s2 ∨ sa2 = s2 ∧ sb2 = s1) ∧
                  extractGo w h alpha x0 y0 (n + 1) idx visited [] = [r, r'] ∧
                  isBBox w x0 y0 (ReachFG w h alpha sa2) r ∧
                  isBBox w x0 y0 (ReachFG w h alpha sb2) r' := by
              intro sa sb hpair hsa hra
              have hbeq : ∀ j, ReachFG w h alpha idx j ↔ ReachFG w h alpha sa j :=
                blob_eq w h alpha sa idx hsa hra
              have hdisj : ∀ i, ReachFG w h alpha idx i → visited.getD i true = false := by
                intro i hri
                have hfi : alpha i ≠ 0 := reach_fg w h alpha idx hfg i hri
                cases hb : visited.getD i true with
                | false => rfl
                | true => exact absurd (hnofg i (hbound i hfi) hb) hfi
              set fin := flood w h alpha
                ⟨visited.set idx true, [idx], idx % w, idx % w, idx / w, idx / w⟩ with hfin
              obtain ⟨hflen, hfmono, hfcov, hfup, hfle, hfwx, hfwX, hfwy, hfwY⟩ :=
                flood_spec w h alpha hbound idx hfg visited hlen hdisj
              have heq : extractGo w h alpha x0 y0 (n + 1) idx visited [] =
                  extractGo w h alpha x0 y0 n (idx + 1) fin.visited
                    ([] ++ [⟨x0 + (fin.minx : Int), y0 + (fin.miny : Int),
                      (fin.maxx : Int) - (fin.minx : Int) + 1,
                      (fin.maxy : Int) - (fin.miny : Int) + 1⟩]) := by
                conv_lhs => rw [extractGo]
                rw [if_neg hvis, if_neg hz]
                dsimp only
                rw [if_neg (by simp)]
              rw [heq]
              have hbbA : isBBox w x0 y0 (ReachFG w h alpha sa)
                  ⟨x0 + (fin.minx : Int), y0 + (fin.miny : Int),
                    (fin.maxx : Int) - (fin.minx : Int) + 1,
                    (fin.maxy : Int) - (fin.miny : Int) + 1⟩ :=
                isBBox_congr w x0 y0 _ _ hbeq _
                  (isBBox_of_flood w x0 y0 (ReachFG w h alpha idx)
                    fin.minx fin.maxx fin.miny fin.maxy hfle hfwx hfwX hfwy hfwY)
              refine extractGo_two w h alpha x0 y0 hbound s1 s2 h1 h2 hsep hcover n (idx + 1)
                fin.visited _ (by omega) hflen ?_ ?_
              · intro i hi
                rcases Nat.lt_or_ge i idx with hlt | hge
                · exact hfmono i (hpre i hlt)
                · have hie : i = idx := by omega
                  subst hie
                  exact hfcov i Relation.ReflTransGen.refl
              · refine Or.inr (Or.inl ⟨_, sa, sb, hpair, by simp, hbbA, ?_⟩)
                intro i hiw hfgi
                constructor
                · intro hv
                  rcases hfup i hv with hcase | hcase | hcase
                  · exact absurd (hnofg i hiw hcase) hfgi
                  · exact (hbeq i).mp hcase
                  · exact absurd hcase hfgi
                · intro hri
                  exact hfcov i ((hbeq i).mpr hri)
            rcases hcover idx hfg with hr1 | hr2
            · exact key s1 s2 (Or.inl ⟨rfl, rfl⟩) h1 hr1
            · exact key s2 s1 (Or.inr ⟨rfl, rfl⟩) h2 hr2
          · -- phase B: the seed starts the second blob
            subst hcomps
            have hsa : alpha sa ≠ 0 := by
              rcases hpair with ⟨ha, hb⟩ | ⟨ha, hb⟩
              · subst ha; exact h1
              · subst ha; exact h2
            have hsb : alpha sb ≠ 0 := by
              rcases hpair with ⟨ha, hb⟩ | ⟨ha, hb⟩
              · subst hb; exact h2
              · subst hb; exact h1
            have hnsa : ¬ ReachFG w h alpha sa idx := fun hra =>
              hvis ((hiff idx hidxlt hfg).mpr hra)
            have hrb : ReachFG w h alpha sb idx := by
              rcases hpair with ⟨ha, hb⟩ | ⟨ha, hb⟩
              · subst ha; subst hb
                rcases hcover idx hfg with hx | hx
                · exact absurd hx hnsa
                · exact hx
              · subst ha; subst hb
                rcases hcover idx hfg with hx | hx
                · exact hx
                · exact absurd hx hnsa
            have hdisjAB : ∀ i, ReachFG w h alpha sb i → ¬ ReachFG w h alpha sa i := by
              intro i hbi hai
              rcases hpair with ⟨ha, hb⟩ | ⟨ha, hb⟩
              · rw [ha] at hai
                rw [hb] at hbi
                exact blobs_disjoint w h alpha s1 s2 h2 hsep i hai hbi
              · rw [ha] at hai
                rw [hb] at hbi
                exact blobs_disjoint w h alpha s1 s2 h2 hsep i hbi hai
            have hbeq : ∀ j, ReachFG w h alpha idx j ↔ ReachFG w h alpha sb j :=
              blob_eq w h alpha sb idx hsb hrb
            have hdisj : ∀ i, ReachFG w h alpha idx i → visited.getD i true = false := by
              intro i hri
              have hfi : alpha i ≠ 0 := reach_fg w h alpha idx hfg i hri
              cases hb : visited.getD i true with
              | false => rfl
              | true =>
                  exact absurd ((hiff i (hbound i hfi) hfi).mp hb)
                    (hdisjAB i ((hbeq i).mp hri))
            set fin := flood w h alpha
              ⟨visited.set idx true, [idx], idx % w, idx % w, idx / w, idx / w⟩ with hfin
            obtain ⟨hflen, hfmono, hfcov, hfup, hfle, hfwx, hfwX, hfwy, hfwY⟩ :=
              flood_spec w h alpha hbound idx hfg visited hlen hdisj
            have heq : extractGo w h alpha x0 y0 (n + 1) idx visited [r] =
                extractGo w h alpha x0 y0 n (idx + 1) fin.visited
                  ([r] ++ [⟨x0 + (fin.minx : Int), y0 + (fin.miny : Int),
                    (fin.maxx : Int) - (fin.minx : Int) + 1,
                    (fin.maxy : Int) - (fin.miny : Int) + 1⟩]) := by
              conv_lhs => rw [extractGo]
              rw [if_neg hvis, if_neg hz]
              dsimp only
              rw [if_neg (by simp)]
            rw [heq]
            have hbbB : isBBox w x0 y0 (ReachFG w h alpha sb)
                ⟨x0 + (fin.minx : Int), y0 + (fin.miny : Int),
                  (fin.maxx : Int) - (fin.minx : Int) + 1,
                  (fin.maxy : Int) - (fin.miny : Int) + 1⟩ :=
              isBBox_congr w x0 y0 _ _ hbeq _
                (isBBox_of_flood w x0 y0 (ReachFG w h alpha idx)
                  fin.minx fin.maxx fin.miny fin.maxy hfle hfwx hfwX hfwy hfwY)
            refine extractGo_two w h alpha x0 y0 hbound s1 s2 h1 h2 hsep hcover n (idx + 1)
              fin.visited _ (by omega) hflen ?_ ?_
            · intro i hi
              rcases Nat.lt_or_ge i idx with hlt | hge
              · exact hfmono i (hpre i hlt)
              · have hie : i = idx := by omega
                subst hie
                exact hfcov i Relation.ReflTransGen.refl
            · refine Or.inr (Or.inr ⟨r, _, sa, sb, hpair, by simp, hbb, hbbB, ?_⟩)
              intro i hiw hfgi
              have hcov2 : ReachFG w h alpha sa i ∨ ReachFG w h alpha sb i := by
                rcases hpair with ⟨ha, hb⟩ | ⟨ha, hb⟩
                · subst ha; subst hb
                  exact hcover i hfgi
                · subst ha; subst hb
                  exact (hcover i hfgi).symm
              rcases hcov2 with hca | hcb
              · exact hfmono i ((hiff i hiw hfgi).mpr hca)
              · exact hfcov i ((hbeq i).mpr hcb)
          · -- phase C: every foreground pixel is already visited
            exact absurd (hall idx hidxlt hfg) hvis

theorem sortByX_pair (a b : RegionRect) :
    sortByX [a, b] = if a.x ≤ b.x then [a, b] else [b, a] := rfl

/-- C1: on a selection mask whose foreground (alpha > 0) splits into
exactly two 4-connected blobs that are not 4-connected to each other
(`s1` and `s2` are pixels of the two blobs; separation by a fully
transparent ring makes them mutually unreachable), the region segmenter
returns exactly two Regions, sorted ascending by `x`, each equal to the
axis-aligned bounding box of exactly one blob - the min/max grid
coordinates of that blob's pixels offset by the mask origin. -/
theorem region_segmenter_two_blobs (w h : Nat) (alpha : Nat → Nat) (x0 y0 : Int)
    (hbound : ∀ i, alpha i ≠ 0 → i < w * h)
    (s1 s2 : Nat) (h1 : alpha s1 ≠ 0) (h2 : alpha s2 ≠ 0)
    (hsep : ¬ ReachFG w h alpha s1 s2)
    (hcover : ∀ i, alpha i ≠ 0 → ReachFG w h alpha s1 i ∨ ReachFG w h alpha s2 i) :
    ∃ r r', sortByX (extractComponents w h alpha x0 y0) = [r, r'] ∧
      r.x ≤ r'.x ∧
      ((isBBox w x0 y0 (ReachFG w h alpha s1) r ∧
        isBBox w x0 y0 (ReachFG w h alpha s2) r') ∨
       (isBBox w x0 y0 (ReachFG w h alpha s2) r ∧
        isBBox w x0 y0 (ReachFG w h alpha s1) r')) := by
  obtain ⟨r, r', sa, sb, hpair, heq, hbbA, hbbB⟩ :=
    extractGo_two w h alpha x0 y0 hbound s1 s2 h1 h2 hsep hcover (w * h) 0
      (List.replicate (w * h) false) [] (by omega) (by simp)
      (fun i hi => absurd hi (Nat.not_lt_zero i))
      (Or.inl ⟨rfl, fun i hiw hv => by
        rw [getDB_replicate_lt _ _ hiw] at hv
        exact absurd hv (by simp)⟩)
  have hec : extractComponents w h alpha x0 y0 = [r, r'] := heq
  rw [hec, sortByX_pair]
  have hAB : (isBBox w x0 y0 (ReachFG w h alpha s1) r ∧
      isBBox w x0 y0 (ReachFG w h alpha s2) r') ∨
      (isBBox w x0 y0 (ReachFG w h alpha s2) r ∧
       isBBox w x0 y0 (ReachFG w h alpha s1) r') := by
    rcases hpair with ⟨ha, hb⟩ | ⟨ha, hb⟩
    · rw [ha] at hbbA
      rw [hb] at hbbB
      exact Or.inl ⟨hbbA, hbbB⟩
    · rw [ha] at hbbA
      rw [hb] at hbbB
      exact Or.inr ⟨hbbA, hbbB⟩
  by_cases hle : r.x ≤ r'.x
  · rw [if_pos hle]
    exact ⟨r, r', rfl, hle, hAB⟩
  · rw [if_neg hle]
    refine ⟨r', r, rfl, le_of_not_le hle, ?_⟩
    rcases hAB with ⟨u, v⟩ | ⟨u, v⟩
    · exact Or.inr ⟨v, u⟩
    · exact Or.inl ⟨v, u⟩

/-- A 3x1 mask with foreground pixels 0 and 2 separated by the
transparent pixel 1: two one-pixel blobs. -/
def alphaW2 : Nat → Nat := fun i => if i = 0 then 1 else if i = 2 then 1 else 0

theorem alphaW2_bound : ∀ i, alphaW2 i ≠ 0 → i < 3 * 1 := by
  intro i hi
  by_cases hc0 : i = 0
  · omega
  · by_cases hc2 : i = 2
    · omega
    · exact absurd (by simp [alphaW2, hc0, hc2]) hi

theorem alphaW2_sep : ¬ ReachFG 3 1 alphaW2 0 2 := by
  intro hR
  have hstep : ∀ p q, ReachFG 3 1 alphaW2 0 p → p = 0 →
      stepFG 3 1 alphaW2 p q → q = 0 := by
    intro p q _ hp hsq
    subst hp
    obtain ⟨hadj, hfq⟩ := hsq
    obtain ⟨hqw, hcases⟩ := adj_enum 3 1 0 q hadj
    exfalso
    rcases hcases with ⟨e1, e2, e3⟩ | ⟨e1, e2, e3⟩ | ⟨e1, e2, e3⟩ | ⟨e1, e2, e3⟩
    · have hq1 : q = 1 := by omega
      subst hq1
      exact hfq rfl
    · omega
    · omega
    · omega
  have h20 := reach_ind 3 1 alphaW2 0 (fun i => i = 0) rfl hstep 2 hR
  exact absurd h20 (by decide)

theorem alphaW2_cover : ∀ i, alphaW2 i ≠ 0 →
    ReachFG 3 1 alphaW2 0 i ∨ ReachFG 3 1 alphaW2 2 i := by
  intro i hi
  by_cases hc0 : i = 0
  · subst hc0
    exact Or.inl Relation.ReflTransGen.refl
  · by_cases hc2 : i = 2
    · subst hc2
      exact Or.inr Relation.ReflTransGen.refl
    · exact absurd (by simp [alphaW2, hc0, hc2]) hi

theorem region_segmenter_two_blobs_witness :
    alphaW2 0 ≠ 0 ∧ alphaW2 2 ≠ 0 ∧ ¬ ReachFG 3 1 alphaW2 0 2 ∧
    (∃ r r', sortByX (extractComponents 3 1 alphaW2 10 20) = [r, r'] ∧
      r.x ≤ r'.x ∧
      ((isBBox 3 10 20 (ReachFG 3 1 alphaW2 0) r ∧
        isBBox 3 10 20 (ReachFG 3 1 alphaW2 2) r') ∨
       (isBBox 3 10 20 (ReachFG 3 1 alphaW2 2) r ∧
        isBBox 3 10 20 (ReachFG 3 1 alphaW2 0) r'))) :=
  ⟨by decide, by decide, alphaW2_sep,
   region_segmenter_two_blobs 3 1 alphaW2 10 20 alphaW2_bound 0 2 (by decide) (by decide)
     alphaW2_sep alphaW2_cover⟩

end KritaComfy
